import Mathlib

/-!
Shallow embedding of the Kontent.ai → Algolia synchronization functions
(`src/functions/algolia-update-webhook.ts` and
`src/functions/utils/algoliaItem.ts`).

Modelling conventions:
* JavaScript strings are Lean `String`s; `String.prototype.trim`, `split`,
  `replace` with the two concrete regexes of the source, and template
  concatenation are embedded as executable Lean functions.
* The dynamic `element.value` is embedded as the inductive `JValue`
  (string / number / array / anything-else); array entries are either
  taxonomy-term-like objects (no `system` property) or linked content
  items (objects with a `system` property).
* The JS object graph of content items (which may be cyclic) is embedded
  as a `Store` — a list of items addressed by position — and a linked
  item inside an element value is a reference (`JEntry.jitem ref`) into
  that store.  Recursive functions over the graph take a fuel argument;
  the fuel is a modelling artefact and the development proves that the
  result stabilises once the fuel exceeds the store size.
* JS numbers are embedded as `Int`; no claim depends on numeric values.
-/

namespace AlgoliaSync

/-- The JavaScript `\s` character class, which is also the set trimmed by
`String.prototype.trim`: ASCII whitespace, NBSP, BOM, line/paragraph
separators and the Unicode space separators. -/
def isJsWhitespace (c : Char) : Bool :=
  let n := c.toNat
  n == 32 || n == 9 || n == 10 || n == 11 || n == 12 || n == 13 ||
  n == 0xa0 || n == 0x1680 || (decide (0x2000 ≤ n) && decide (n ≤ 0x200a)) ||
  n == 0x2028 || n == 0x2029 || n == 0x202f || n == 0x205f ||
  n == 0x3000 || n == 0xfeff

/-- Embeds `s.trim()`. -/
def jsTrim (s : String) : String :=
  String.mk (((s.toList.dropWhile isJsWhitespace).reverse.dropWhile isJsWhitespace).reverse)

/-- Helper for the regex `<[^>]*>`: drop characters up to and including the
first `>`; `none` when no `>` remains (in which case the regex has no match
starting at the current `<`). -/
def dropThroughGt : List Char → Option (List Char)
  | [] => none
  | c :: rest => if c = '>' then some rest else dropThroughGt rest

/-- Embeds `str.replace(/<[^>]*>/g, " ")` (on a character list, driven by
fuel; each match or literal character consumes at least one input
character, so fuel = input length always suffices). -/
def replaceTagsF : Nat → List Char → List Char
  | 0, cs => cs
  | _ + 1, [] => []
  | fuel + 1, c :: rest =>
    if c = '<' then
      match dropThroughGt rest with
      | some rest2 => ' ' :: replaceTagsF fuel rest2
      | none => c :: replaceTagsF fuel rest
    else c :: replaceTagsF fuel rest

/-- Embeds `str.replace(/<[^>]*>/g, " ")`. -/
def replaceTagsStr (s : String) : String :=
  String.mk (replaceTagsF s.toList.length s.toList)

/-- Embeds `str.replace(/\s+/g, " ")` (fuel-driven; fuel = input length
always suffices). -/
def collapseWsF : Nat → List Char → List Char
  | 0, cs => cs
  | _ + 1, [] => []
  | fuel + 1, c :: rest =>
    if isJsWhitespace c then ' ' :: collapseWsF fuel (rest.dropWhile isJsWhitespace)
    else c :: collapseWsF fuel rest

/-- Embeds `str.replace(/\s+/g, " ")`. -/
def collapseWsStr (s : String) : String :=
  String.mk (collapseWsF s.toList.length s.toList)

/-- Embeds `stripHtml` from `algoliaItem.ts`:
`html.replace(/<[^>]*>/g, ' ').replace(/\s+/g, ' ').trim()`. -/
def stripHtml (html : String) : String :=
  jsTrim (collapseWsStr (replaceTagsStr html))

/-! ## Data model -/

/-- One entry of a JS array sitting in `element.value`: either a
taxonomy-term-like object (no `system` property; its `codename` property
may be missing) or a linked content item, embedded as a reference into
the store. -/
inductive JEntry where
  | jterm (codename : Option String)
  | jitem (ref : Nat)
deriving DecidableEq, Repr

/-- The dynamic `element.value`. -/
inductive JValue where
  | jstr (s : String)
  | jnum (n : Int)
  | jarr (entries : List JEntry)
  | jundef
deriving DecidableEq, Repr

/-- One element of a content item (`item.elements[codename]`). -/
structure Element where
  type : String
  value : JValue
deriving DecidableEq, Repr

/-- `item.system` of the delivery SDK. `collection` is optional because the
source defends with `item.system.collection || ""`. -/
structure SystemInfo where
  id : String
  codename : String
  name : String
  language : String
  type : String
  collection : Option String
deriving DecidableEq, Repr

/-- A content item: its `system` data plus its elements as an ordered
association list (JS object entries in insertion order, keys unique). -/
structure ContentItem where
  system : SystemInfo
  elements : List (String × Element)
deriving DecidableEq, Repr

/-- The JS heap of content items; `JEntry.jitem ref` points at
`store[ref]?`. -/
abbrev Store := List ContentItem

/-- `ContentBlock` from `algoliaItem.ts`. -/
structure ContentBlock where
  id : String
  codename : String
  name : String
  type : String
  language : String
  collection : String
  parents : List String
  contents : String
deriving DecidableEq, Repr

/-- `AlgoliaItem` from `algoliaItem.ts`; optional TS fields are `Option`s
defaulting to `none` (i.e. absent / `undefined`). -/
structure AlgoliaItem where
  id : String
  objectID : String
  codename : String
  name : String
  language : String
  type : String
  slug : Option String
  collection : String
  campground_name : Option String := none
  phone : Option String := none
  email : Option String := none
  address : Option String := none
  city : Option String := none
  state : Option String := none
  zip : Option String := none
  description : Option String := none
  latitude : Option Int := none
  longitude : Option Int := none
  amenities : Option (List String) := none
  ways_to_stay : Option (List String) := none
  region : Option String := none
  google_place_id : Option String := none
  content : List ContentBlock
deriving DecidableEq, Repr

/-- `` `${item.system.id}_${item.system.language}` `` — the key used both
for the visited set and for `objectID`. -/
def itemKey (item : ContentItem) : String :=
  item.system.id ++ "_" ++ item.system.language

/-- Element lookup `item.elements[codename]` (JS object property access;
keys are unique, first match). -/
def getElementOf (item : ContentItem) (codename : String) : Option Element :=
  item.elements.lookup codename

/-- The slug test applied to linked items in `createRecordBlocks` (and in
`canConvertToAlgoliaItem`): the element exists, its value is a string and
that string is non-empty. -/
def hasSlugValue (slugCodename : String) (item : ContentItem) : Bool :=
  match getElementOf item slugCodename with
  | some el =>
    match el.value with
    | JValue.jstr s => decide (0 < s.length)
    | _ => false
  | none => false

/-! ## Address parsing (`parseAddress`) -/

/-- Result of `parseAddress`: the `{ city?, state?, zip? }` object. -/
structure ParsedAddress where
  city : Option String := none
  state : Option String := none
  zip : Option String := none
deriving DecidableEq, Repr

/-- Split a character list at the first comma, returning the part before
the comma and the part after it.  This implements the `([^,]+),` prefix of
the address regex: the greedy `[^,]+` cannot cross a comma, so the match
is forced to end at the first comma. -/
def splitAtFirstComma : List Char → Option (List Char × List Char)
  | [] => none
  | c :: rest =>
    if c = ',' then some ([], rest)
    else (splitAtFirstComma rest).map fun p => (c :: p.1, p.2)

/-- `c` is in the regex class `[A-Z]`. -/
def isUpperAZ (c : Char) : Bool := decide ('A' ≤ c) && decide (c ≤ 'Z')

/-- `c` is in the regex class `\d`. -/
def isDigitCh (c : Char) : Bool := decide ('0' ≤ c) && decide (c ≤ '9')

/-- Embeds matching the city/state line against
`/^([^,]+),\s*([A-Z]{2})\s+(\d{5}(?:-\d{4})?)$/` and returns the three
capture groups.  Greediness is deterministic here: `[^,]+` must end at
the first comma, `\s*`/`\s+` cannot steal from `[A-Z]`/`\d`, and the
optional `-\d{4}` is forced by the trailing `$`. -/
def matchCityStateZip (line : String) : Option (String × String × String) :=
  match splitAtFirstComma line.toList with
  | none => none
  | some (cityChars, afterComma) =>
    if cityChars.isEmpty then none
    else
      match afterComma.dropWhile isJsWhitespace with
      | s1 :: s2 :: afterState =>
        if isUpperAZ s1 && isUpperAZ s2 then
          let ws := afterState.takeWhile isJsWhitespace
          let afterWs := afterState.dropWhile isJsWhitespace
          if ws.isEmpty then none
          else
            match afterWs with
            | d1 :: d2 :: d3 :: d4 :: d5 :: tail =>
              if isDigitCh d1 && isDigitCh d2 && isDigitCh d3 && isDigitCh d4 && isDigitCh d5 then
                match tail with
                | [] =>
                  some (String.mk cityChars, String.mk [s1, s2], String.mk [d1, d2, d3, d4, d5])
                | '-' :: e1 :: e2 :: e3 :: e4 :: [] =>
                  if isDigitCh e1 && isDigitCh e2 && isDigitCh e3 && isDigitCh e4 then
                    some (String.mk cityChars, String.mk [s1, s2],
                      String.mk ([d1, d2, d3, d4, d5] ++ '-' :: [e1, e2, e3, e4]))
                  else none
                | _ => none
              else none
            | _ => none
        else none
      | _ => none

/-- `str.split(sep)` for a one-character separator, keeping empty pieces
(JS semantics: `"".split` gives `[""]`, `"\n".split` gives `["", ""]`). -/
def splitOnChar (sep : Char) : List Char → List (List Char)
  | [] => [[]]
  | c :: rest =>
    let r := splitOnChar sep rest
    if c = sep then [] :: r
    else
      match r with
      | [] => [[c]]
      | h :: t => (c :: h) :: t

/-- The non-blank lines of the address:
`address.split('\n').filter(l => l.trim())`. -/
def nonBlankLines (address : String) : List String :=
  ((splitOnChar '\n' address.toList).map String.mk).filter fun l => jsTrim l ≠ ""

/-- Embeds `parseAddress` from `algoliaItem.ts`. -/
def parseAddress (address : String) : ParsedAddress :=
  if address = "" then {}
  else
    let lines := nonBlankLines address
    if lines.length < 2 then {}
    else
      let cityStateLine := lines.getLast?.getD ""
      match matchCityStateZip cityStateLine with
      | some (city, state, zip) =>
        { city := some (jsTrim city), state := some (jsTrim state), zip := some (jsTrim zip) }
      | none => {}

/-! ## Campground conversion (`convertCampgroundToAlgolia`) -/

/-- `getTextValue` from `convertCampgroundToAlgolia`. -/
def getTextValue (item : ContentItem) (codename : String) : Option String :=
  match getElementOf item codename with
  | some el => match el.value with | JValue.jstr s => some s | _ => none
  | none => none

/-- `getNumberValue` from `convertCampgroundToAlgolia`. -/
def getNumberValue (item : ContentItem) (codename : String) : Option Int :=
  match getElementOf item codename with
  | some el => match el.value with | JValue.jnum n => some n | _ => none
  | none => none

/-- `value.map((t) => t.codename).filter(Boolean)` over a JS array: linked
items have no top-level `codename` property (it sits under `system`), so
they map to `undefined` and are filtered out, as are missing and empty
codenames. -/
def termCodenames (entries : List JEntry) : List String :=
  entries.filterMap fun e =>
    match e with
    | JEntry.jterm (some c) => if 0 < c.length then some c else none
    | _ => none

/-- Embeds `convertCampgroundToAlgolia` from `algoliaItem.ts`. -/
def convertCampgroundToAlgolia (item : ContentItem) (slug : Option String) : AlgoliaItem :=
  let address := (getTextValue item "address").getD ""
  let parsed := parseAddress address
  let description : Option String :=
    match getTextValue item "banner_body" with
    | some s => if s = "" then none else some (stripHtml s)
    | none => none
  let amenities : Option (List String) :=
    match getElementOf item "amenities" with
    | some el => match el.value with | JValue.jarr es => some (termCodenames es) | _ => none
    | none => none
  let waysToStay : Option (List String) :=
    match getElementOf item "ways_to_stay" with
    | some el => match el.value with | JValue.jarr es => some (termCodenames es) | _ => none
    | none => none
  let region : Option String :=
    match getElementOf item "region" with
    | some el =>
      match el.value with
      | JValue.jarr es =>
        match es.head? with
        | some (JEntry.jterm c) => c
        | _ => none
      | _ => none
    | none => none
  { id := item.system.id
    objectID := item.system.id ++ "_" ++ item.system.language
    codename := item.system.codename
    name := item.system.name
    language := item.system.language
    type := "campground"
    slug := slug
    collection := item.system.collection.getD ""
    campground_name := getTextValue item "name"
    phone := getTextValue item "phone_number"
    email := getTextValue item "email_address"
    address := some address
    city := parsed.city
    state := parsed.state
    zip := parsed.zip
    description := description
    latitude := getNumberValue item "latitude_coordinate"
    longitude := getNumberValue item "longitude_coordinate"
    amenities := amenities
    ways_to_stay := waysToStay
    region := region
    google_place_id := getTextValue item "google_place_id"
    content := [] }

/-! ## Generic aggregation (`createRecordBlocks`)

The source function mutates three pieces of state while looping over the
elements of an item: the accumulated `contents` string, the `parents`
array and the shared `processedItems` set.  The embedding threads the
state `(contents, parents, processed)` explicitly; the loop over the
entries of a `modular_content` element (`goEntries`) and the loop over
the elements (`goElements`) are parameterised by the recursive flattening
function `recurse`, and `createRecordBlocksF` ties the knot with a fuel
argument (the recursion depth is bounded by the number of distinct item
keys, so any fuel beyond `store.length + 2` gives the same result — this
is proved below).

The source also receives an `allItemsMap` parameter, but never reads it
(it is only passed through to recursive calls); the embedding therefore
omits it.  Linked items in `element.value` are references into the
`Store` (the JS heap), which is how a cyclic object graph is represented.
-/

/-- Aggregation state: `(contents, parents, processed)`. -/
abbrev RBState := String × List String × List String

/-- The loop over the entries of a `modular_content` element value: term
objects (no `system` property) are skipped; a linked item with a slug is
recorded in `parents`; one without a slug is recursively flattened and
its contents appended (`contents += " " + linkedBlocks.map(b => b.contents).join(" ")`). -/
def goEntries (store : Store) (slugCodename : String)
    (recurse : ContentItem → List String → List ContentBlock × List String) :
    List JEntry → RBState → RBState
  | [], st => st
  | JEntry.jterm _ :: rest, st => goEntries store slugCodename recurse rest st
  | JEntry.jitem ref :: rest, st =>
    match store[ref]? with
    | none => goEntries store slugCodename recurse rest st
    | some linkedItemData =>
      let (contents, parents, processed) := st
      if hasSlugValue slugCodename linkedItemData then
        goEntries store slugCodename recurse rest
          (contents, parents ++ [linkedItemData.system.id], processed)
      else
        let (linkedBlocks, processed2) := recurse linkedItemData processed
        goEntries store slugCodename recurse rest
          (contents ++ " " ++ String.intercalate " " (linkedBlocks.map (·.contents)),
            parents, processed2)

/-- The loop over `Object.entries(item.elements)`: `metadata` is skipped;
a string value contributes text (rich text with tags replaced by spaces);
a `modular_content` array value is traversed by `goEntries`. -/
def goElements (store : Store) (slugCodename : String)
    (recurse : ContentItem → List String → List ContentBlock × List String) :
    List (String × Element) → RBState → RBState
  | [], st => st
  | (key, element) :: rest, st =>
    if key = "metadata" then goElements store slugCodename recurse rest st
    else
      let (contents, parents, processed) := st
      let contents :=
        match element.value with
        | JValue.jstr s =>
          contents ++ " " ++ (if element.type = "rich_text" then replaceTagsStr s else s)
        | _ => contents
      let st2 :=
        match element.value with
        | JValue.jarr entries =>
          if element.type = "modular_content" then
            goEntries store slugCodename recurse entries (contents, parents, processed)
          else (contents, parents, processed)
        | _ => (contents, parents, processed)
      goElements store slugCodename recurse rest st2

/-- Embeds `createRecordBlocks` from `algoliaItem.ts` (fuel-driven; see
the section comment).  Returns the produced blocks together with the
updated `processedItems` set. -/
def createRecordBlocksF (store : Store) (slugCodename : String) :
    Nat → ContentItem → List String → List ContentBlock × List String
  | 0, _, processed => ([], processed)
  | fuel + 1, item, processed =>
    if itemKey item ∈ processed then ([], processed)
    else
      let (contents, parents, processed2) :=
        goElements store slugCodename (createRecordBlocksF store slugCodename fuel)
          item.elements ("", [], itemKey item :: processed)
      ([{ id := item.system.id
          codename := item.system.codename
          name := item.system.name
          type := item.system.type
          language := item.system.language
          collection := item.system.collection.getD ""
          parents := parents
          contents := jsTrim contents }], processed2)

/-- `createRecordBlocks` with enough fuel for any traversal of `store`. -/
def createRecordBlocks (store : Store) (slugCodename : String)
    (item : ContentItem) (processed : List String) : List ContentBlock × List String :=
  createRecordBlocksF store slugCodename (store.length + 2) item processed

/-! ## Record conversion (`convertToAlgoliaItem`) -/

/-- Embeds `convertToAlgoliaItem` from `algoliaItem.ts`: the slug value,
then dispatch on `item.system.type`. -/
def convertToAlgoliaItem (store : Store) (slugCodename : String)
    (item : ContentItem) : AlgoliaItem :=
  let slug : Option String :=
    match getElementOf item slugCodename with
    | some el => match el.value with | JValue.jstr s => some s | _ => none
    | none => none
  if item.system.type = "campground" then convertCampgroundToAlgolia item slug
  else
    let contentBlocks := (createRecordBlocks store slugCodename item []).1
    { id := item.system.id
      objectID := item.system.id ++ "_" ++ item.system.language
      codename := item.system.codename
      name := item.system.name
      language := item.system.language
      type := item.system.type
      slug := slug
      collection := item.system.collection.getD ""
      content := contentBlocks }

/-- Embeds `process.env.SLUG_CODENAME || "url"` from the single-item
handler: the configured slug element codename defaults to `"url"` when
the variable is unset or empty. -/
def slugCodenameOfEnv (env : Option String) : String :=
  match env with
  | some s => if s = "" then "url" else s
  | none => "url"

/-! ## Webhook batch pipeline (`algolia-update-webhook.ts`, batch handler)

The handler part after request validation: filter the notifications,
resolve and convert each one, and reduce the per-notification actions
into the final write batch.  The two remote collaborators are
parameters: the delivery fetch is a function returning `none` exactly
when the SDK call throws (not-found, network, timeout), and the Algolia
index write is outside the modelled core (the model produces the final
`WriteBatch`).
-/

/-- One webhook notification, flattened to the fields the handler reads:
`message.object_type`, `message.environment_id`, `data.system.codename`,
`data.system.language`. -/
structure WebhookNotification where
  objectType : String
  environmentId : String
  codename : String
  language : String
deriving DecidableEq, Repr

/-- `isItemNotification` from the handler. -/
def isItemNotification (n : WebhookNotification) : Bool :=
  n.objectType = "content_item"

/-- The per-notification outcome returned by `updateItem`. -/
structure ItemAction where
  objectIdsToRemove : List String
  recordsToReindex : List AlgoliaItem
deriving DecidableEq, Repr

/-- The delivery collaborator: given environment id, item codename and
language, either the fetched item with its linked items (all living in
the ambient `Store`), or `none` when the fetch throws. -/
abbrev DeliveryFetch := String → String → String → Option (ContentItem × List ContentItem)

/-- `new Map(entries)` / `map.set`: a later entry with the same key
overwrites the value but keeps the first-occurrence position. -/
def jsMapUpsert {α : Type} (m : List (String × α)) (kv : String × α) : List (String × α) :=
  if m.any (fun p => p.1 = kv.1) then
    m.map fun p => if p.1 = kv.1 then (p.1, kv.2) else p
  else m ++ [kv]

/-- `new Map(entries)`: build the map by inserting the entries in order. -/
def jsMapOfEntries {α : Type} (entries : List (String × α)) : List (String × α) :=
  entries.foldl jsMapUpsert []

/-- `[...new Set(xs)]`: deduplicate keeping the first occurrence. -/
def jsSetOfList (xs : List String) : List String :=
  xs.foldl (fun acc x => if x ∈ acc then acc else acc ++ [x]) []

/-- Embeds `findDeliveryItemWithChildrenByCodename`: on a successful
fetch, the map from codename to item over the fetched item and its
linked items; on any thrown fetch failure, the empty map. -/
def findDeliveryItemWithChildrenByCodename (fetchEnv : String → String → Option (ContentItem × List ContentItem))
    (codename language : String) : List (String × ContentItem) :=
  match fetchEnv codename language with
  | some (item, linkedItems) =>
    jsMapOfEntries ((item :: linkedItems).map fun i => (i.system.codename, i))
  | none => []

/-- Embeds `updateItem`: resolve the notified item; if it is missing from
the resolution result, a no-op action; otherwise one record to reindex.
(The source passes the resolved item itself where `convertToAlgoliaItem`
declares the `allItemsMap` parameter; since that parameter is never read,
the conversion here receives the ambient store.) -/
def updateItem (store : Store) (fetchEnv : String → String → Option (ContentItem × List ContentItem))
    (slug : String) (codename language : String) : List ItemAction :=
  let deliverItems := findDeliveryItemWithChildrenByCodename fetchEnv codename language
  match deliverItems.lookup codename with
  | none => [{ objectIdsToRemove := [], recordsToReindex := [] }]
  | some deliverItem =>
    [{ objectIdsToRemove := []
       recordsToReindex := [convertToAlgoliaItem store slug deliverItem] }]

/-- The fan-out over the notifications of one webhook delivery:
`filter(object_type === "content_item")`, then `updateItem` per
notification (the inner `isItemNotification` guard returns `[]` for
non-item notifications), flattened. -/
def processNotifications (store : Store) (fetch : DeliveryFetch) (slug : String)
    (notifications : List WebhookNotification) : List ItemAction :=
  ((notifications.filter fun n => n.objectType = "content_item").map fun n =>
    if isItemNotification n then updateItem store (fetch n.environmentId) slug n.codename n.language
    else []).flatten

/-- The reducer for upserts:
`[...new Map(actions.flatMap(a => a.recordsToReindex.map(i => [i.codename, i]))).values()]`. -/
def recordsToReIndex (actions : List ItemAction) : List AlgoliaItem :=
  (jsMapOfEntries ((actions.map fun a => a.recordsToReindex.map fun i => (i.codename, i)).flatten)).map
    (·.2)

/-- The reducer for deletions:
`[...new Set(actions.flatMap(a => a.objectIdsToRemove))]`. -/
def objectIdsToRemove (actions : List ItemAction) : List String :=
  jsSetOfList ((actions.map (·.objectIdsToRemove)).flatten)

/-- The final write batch of one webhook invocation. -/
structure WriteBatch where
  recordsToReIndex : List AlgoliaItem
  objectIdsToRemove : List String
deriving DecidableEq, Repr

/-- The whole post-validation pipeline: fan-out, then reduction. -/
def handlerBatch (store : Store) (fetch : DeliveryFetch) (slug : String)
    (notifications : List WebhookNotification) : WriteBatch :=
  let actions := processNotifications store fetch slug notifications
  { recordsToReIndex := recordsToReIndex actions
    objectIdsToRemove := objectIdsToRemove actions }

/-! ## Characterisation helpers

Closed-form descriptions of aspects of the aggregation, proved equal to /
related to the recursive function below. -/

/-- The ids that one `modular_content` entry list contributes to
`parents`: the ids of the referenced items that pass the slug test. -/
def sluggedIdsOfEntries (store : Store) (slugCodename : String) : List JEntry → List String
  | [] => []
  | JEntry.jterm _ :: rest => sluggedIdsOfEntries store slugCodename rest
  | JEntry.jitem ref :: rest =>
    match store[ref]? with
    | none => sluggedIdsOfEntries store slugCodename rest
    | some li =>
      if hasSlugValue slugCodename li then
        li.system.id :: sluggedIdsOfEntries store slugCodename rest
      else sluggedIdsOfEntries store slugCodename rest

/-- The ids that a whole element list contributes to `parents`. -/
def sluggedIdsOfElements (store : Store) (slugCodename : String) :
    List (String × Element) → List String
  | [] => []
  | (key, el) :: rest =>
    (if key = "metadata" then []
     else
       match el.value with
       | JValue.jarr entries =>
         if el.type = "modular_content" then sluggedIdsOfEntries store slugCodename entries
         else []
       | _ => []) ++ sluggedIdsOfElements store slugCodename rest

/-- The visited-set keys of the store items that fail the slug test —
the only store items the aggregation may ever recurse into. -/
def nonSlugKeys (store : Store) (slugCodename : String) : List String :=
  (store.filter fun it => !hasSlugValue slugCodename it).map itemKey

/-- How many distinct item keys of the store are not yet in the visited
set; the measure that bounds the recursion depth of the aggregation. -/
def availCount (store : Store) (processed : List String) : Nat :=
  (((store.map itemKey).dedup).filter fun k => decide (k ∉ processed)).length

/-- `NewKeys pr pr2 news`: the visited set grew from `pr` to `pr2` by
exactly the fresh, pairwise-distinct keys `news`. -/
def NewKeys (pr pr2 news : List String) : Prop :=
  pr2 = news ++ pr ∧ news.Nodup ∧ ∀ k ∈ news, k ∉ pr

/-! ## Concrete fixtures used by witnesses and counterexamples -/

/-- Item A of the cyclic link graph A→B→A. -/
def cycItemA : ContentItem :=
  ⟨⟨"idA", "a", "A", "en", "article", some "col"⟩,
    [("title", ⟨"text", JValue.jstr "Atext"⟩),
     ("links", ⟨"modular_content", JValue.jarr [JEntry.jitem 1]⟩)]⟩

/-- Item B of the cyclic link graph A→B→A. -/
def cycItemB : ContentItem :=
  ⟨⟨"idB", "b", "B", "en", "article", some "col"⟩,
    [("title", ⟨"text", JValue.jstr "Btext"⟩),
     ("links", ⟨"modular_content", JValue.jarr [JEntry.jitem 0]⟩)]⟩

/-- The cyclic store: A links to B, B links back to A. -/
def cycStore : Store := [cycItemA, cycItemB]

/-- A record as produced for some notification: codename `dup`,
language `en`. -/
def dupRecordEn : AlgoliaItem :=
  { id := "i1", objectID := "i1_en", codename := "dup", name := "Dup EN",
    language := "en", type := "article", slug := some "dup-slug",
    collection := "main", content := [] }

/-- A record with the same codename but another language, hence another
`objectID`. -/
def dupRecordDe : AlgoliaItem :=
  { id := "i1", objectID := "i1_de", codename := "dup", name := "Dup DE",
    language := "de", type := "article", slug := some "dup-slug",
    collection := "main", content := [] }

/-- Two per-notification results carrying the two records above. -/
def dupActions : List ItemAction :=
  [{ objectIdsToRemove := [], recordsToReindex := [dupRecordEn] },
   { objectIdsToRemove := [], recordsToReindex := [dupRecordDe] }]

/-- An item whose configured slug element holds the empty string. -/
def emptySlugItem : ContentItem :=
  ⟨⟨"id4", "c4", "Four", "en", "article", some "main"⟩,
    [("url", ⟨"url_slug", JValue.jstr ""⟩)]⟩

/-- A generic item with one rich-text element whose markup removal leaves
a run of two spaces. -/
def richTextItem : ContentItem :=
  ⟨⟨"id5", "c5", "Five", "en", "article", some "main"⟩,
    [("body", ⟨"rich_text", JValue.jstr "<p>a</p><p>b</p>"⟩)]⟩

/-- A campground item with an address and a rich-text banner body. -/
def campItem : ContentItem :=
  ⟨⟨"id7", "c7", "Camp", "en", "campground", some "main"⟩,
    [("url", ⟨"url_slug", JValue.jstr "camp"⟩),
     ("name", ⟨"text", JValue.jstr "Shady Pines"⟩),
     ("address", ⟨"text", JValue.jstr "123 Main St\nAnytown, CA 90210"⟩),
     ("banner_body", ⟨"rich_text", JValue.jstr "<p>Hello&nbsp;<b>world</b></p>"⟩),
     ("amenities", ⟨"taxonomy", JValue.jarr [JEntry.jterm (some "pool"), JEntry.jterm none]⟩)]⟩

/-- A linked item that carries a non-empty slug (independently
indexable); its text must never be inlined. -/
def sluggedChild : ContentItem :=
  ⟨⟨"idS", "s", "Slugged", "en", "article", some "main"⟩,
    [("url", ⟨"url_slug", JValue.jstr "s-slug"⟩),
     ("title", ⟨"text", JValue.jstr "SECRET"⟩)]⟩

/-- A linked item without a slug; its text is inlined. -/
def plainChild : ContentItem :=
  ⟨⟨"idT", "t", "Plain", "en", "article", some "main"⟩,
    [("title", ⟨"text", JValue.jstr "Ttext"⟩)]⟩

/-- A parent item linking the slugged and the plain child. -/
def parentItem : ContentItem :=
  ⟨⟨"idP", "p", "Parent", "en", "article", some "main"⟩,
    [("title", ⟨"text", JValue.jstr "Ptext"⟩),
     ("links", ⟨"modular_content", JValue.jarr [JEntry.jitem 1, JEntry.jitem 2]⟩)]⟩

/-- Store for the slug-filtering example: parent at 0, slugged child at
1, plain child at 2. -/
def slugStore : Store := [parentItem, sluggedChild, plainChild]

/-- An item with a `metadata` element carrying text and linked items. -/
def metadataItem : ContentItem :=
  ⟨⟨"idM", "m", "Meta", "en", "article", some "main"⟩,
    [("title", ⟨"text", JValue.jstr "Mtext"⟩),
     ("metadata", ⟨"modular_content", JValue.jarr [JEntry.jitem 2]⟩)]⟩

/-- The same item without its `metadata` element. -/
def metadataFreeItem : ContentItem :=
  ⟨⟨"idM", "m", "Meta", "en", "article", some "main"⟩,
    [("title", ⟨"text", JValue.jstr "Mtext"⟩)]⟩

/-- Two content-item notifications with distinct codenames. -/
def notifP : WebhookNotification := ⟨"content_item", "env1", "pa", "en"⟩

/-- Second notification, see `notifP`. -/
def notifQ : WebhookNotification := ⟨"content_item", "env1", "qa", "en"⟩

/-- Item delivered for `notifP`. -/
def fetchedItemP : ContentItem :=
  ⟨⟨"p1", "pa", "P", "en", "article", some "main"⟩, [("t", ⟨"text", JValue.jstr "Pt"⟩)]⟩

/-- Item delivered for `notifQ`. -/
def fetchedItemQ : ContentItem :=
  ⟨⟨"q1", "qa", "Q", "en", "article", some "main"⟩, [("t", ⟨"text", JValue.jstr "Qt"⟩)]⟩

/-- A delivery collaborator that resolves the two notifications above and
throws for everything else. -/
def demoFetch : DeliveryFetch := fun _ codename _ =>
  if codename = "pa" then some (fetchedItemP, [])
  else if codename = "qa" then some (fetchedItemQ, [])
  else none

/-- A delivery collaborator that resolves `notifQ` but throws for
`notifP` (and everything else). -/
def flakyFetch : DeliveryFetch := fun _ codename _ =>
  if codename = "qa" then some (fetchedItemQ, []) else none

/-! # Theorems -/

/-! ## Unfolding lemmas for the aggregation -/

theorem createRecordBlocksF_mem (store : Store) (sc : String) (fuel : Nat)
    (item : ContentItem) (pr : List String) (h : itemKey item ∈ pr) :
    createRecordBlocksF store sc (fuel + 1) item pr = ([], pr) := by
  simp [createRecordBlocksF, h]

theorem createRecordBlocksF_enter (store : Store) (sc : String) (fuel : Nat)
    (item : ContentItem) (pr : List String) (h : itemKey item ∉ pr) :
    createRecordBlocksF store sc (fuel + 1) item pr =
      ([{ id := item.system.id
          codename := item.system.codename
          name := item.system.name
          type := item.system.type
          language := item.system.language
          collection := item.system.collection.getD ""
          parents := (goElements store sc (createRecordBlocksF store sc fuel) item.elements
            ("", [], itemKey item :: pr)).2.1
          contents := jsTrim (goElements store sc (createRecordBlocksF store sc fuel) item.elements
            ("", [], itemKey item :: pr)).1 }],
        (goElements store sc (createRecordBlocksF store sc fuel) item.elements
          ("", [], itemKey item :: pr)).2.2) := by
  rcases hg : goElements store sc (createRecordBlocksF store sc fuel) item.elements
    ("", [], itemKey item :: pr) with ⟨c, p, pr2⟩
  simp [createRecordBlocksF, h, hg]

/-! ## Address parsing lemmas -/

theorem parseAddress_of_match (addr : String) (c s z : String) (h0 : ¬ addr = "")
    (h1 : ¬ (nonBlankLines addr).length < 2)
    (hm : matchCityStateZip ((nonBlankLines addr).getLast?.getD "") = some (c, s, z)) :
    parseAddress addr =
      { city := some (jsTrim c), state := some (jsTrim s), zip := some (jsTrim z) } := by
  unfold parseAddress
  rw [if_neg h0]
  simp only [nonBlankLines] at h1 hm ⊢
  rw [if_neg h1, hm]

theorem parseAddress_of_no_match (addr : String) (h0 : ¬ addr = "")
    (h1 : ¬ (nonBlankLines addr).length < 2)
    (hm : matchCityStateZip ((nonBlankLines addr).getLast?.getD "") = none) :
    parseAddress addr = {} := by
  unfold parseAddress
  rw [if_neg h0]
  simp only [nonBlankLines] at h1 hm ⊢
  rw [if_neg h1, hm]

theorem parseAddress_of_few_lines (addr : String)
    (h1 : (nonBlankLines addr).length < 2) :
    parseAddress addr = {} := by
  unfold parseAddress
  by_cases h0 : addr = ""
  · rw [if_pos h0]
  · rw [if_neg h0]
    simp only [nonBlankLines] at h1 ⊢
    rw [if_pos h1]

/-- C6: `parseAddress` populates `city`/`state`/`zip` exactly when there
are at least two non-blank lines and the last one matches the
`City, ST ZIPCODE` pattern; on any mismatch all three stay absent and the
function is total (never throws).  The two spec examples evaluate as
claimed. -/
theorem c6_parse_address :
    (∀ addr : String,
      (((parseAddress addr).city = none ∧ (parseAddress addr).state = none ∧
          (parseAddress addr).zip = none) ∨
        ((parseAddress addr).city.isSome ∧ (parseAddress addr).state.isSome ∧
          (parseAddress addr).zip.isSome)) ∧
      ((parseAddress addr).city.isSome ↔
        2 ≤ (nonBlankLines addr).length ∧
          (matchCityStateZip ((nonBlankLines addr).getLast?.getD "")).isSome)) ∧
    parseAddress "123 Main St\nAnytown, CA 90210" =
      { city := some "Anytown", state := some "CA", zip := some "90210" } ∧
    parseAddress "123 Main St" = { city := none, state := none, zip := none } := by
  refine ⟨fun addr => ?_, by decide, by decide⟩
  by_cases h1 : (nonBlankLines addr).length < 2
  · rw [parseAddress_of_few_lines addr h1]
    refine ⟨Or.inl ⟨rfl, rfl, rfl⟩, ?_⟩
    simp only [Option.isSome_none, Bool.false_eq_true, false_iff]
    intro h
    omega
  · have h0 : ¬ addr = "" := by
      intro h
      subst h
      revert h1
      decide
    cases hm : matchCityStateZip ((nonBlankLines addr).getLast?.getD "") with
    | none =>
      rw [parseAddress_of_no_match addr h0 h1 hm]
      refine ⟨Or.inl ⟨rfl, rfl, rfl⟩, ?_⟩
      simp [hm]
    | some t =>
      obtain ⟨c, s, z⟩ := t
      rw [parseAddress_of_match addr c s z h0 h1 hm]
      refine ⟨Or.inr ⟨rfl, rfl, rfl⟩, ?_⟩
      simp [hm]
      omega

/-- C4 counterexample: an item whose configured slug element holds the
empty string produces `slug = some ""` (JS: the empty string, which is
defined), not the absent value the claim requires. -/
theorem c4_counterexample :
    getElementOf emptySlugItem "url" = some ⟨"url_slug", JValue.jstr ""⟩ ∧
    (convertToAlgoliaItem [] "url" emptySlugItem).slug = some "" ∧
    (convertToAlgoliaItem [] "url" emptySlugItem).slug ≠ none := by
  decide

/-- C4 amended: the slug element codename defaults to `"url"`; the
record's `slug` is absent exactly when the configured element is absent
or its value is not a string, and otherwise equals the element's string
value — including the empty string. -/
theorem c4_slug_amended :
    slugCodenameOfEnv none = "url" ∧
    slugCodenameOfEnv (some "") = "url" ∧
    (∀ s : String, slugCodenameOfEnv (some s) = if s = "" then "url" else s) ∧
    (∀ (store : Store) (sc : String) (item : ContentItem),
      (convertToAlgoliaItem store sc item).slug =
        match getElementOf item sc with
        | some el => (match el.value with | JValue.jstr s => some s | _ => none)
        | none => none) := by
  refine ⟨rfl, rfl, fun s => rfl, fun store sc item => ?_⟩
  by_cases h : item.system.type = "campground" <;>
    simp [convertToAlgoliaItem, h, convertCampgroundToAlgolia]

/-- C5 counterexample: for a rich-text element aggregated by the generic
path, tags are replaced by spaces but the whitespace is not collapsed:
the used text `"a  b"` (two spaces) differs from the tag-strip +
collapse + trim result `"a b"`. -/
theorem c5_counterexample :
    ((convertToAlgoliaItem [] "url" richTextItem).content.map (fun b => b.contents)) =
      ["a  b"] ∧
    stripHtml "<p>a</p><p>b</p>" = "a b" ∧
    ("a  b" : String) ≠ "a b" := by
  decide

/-- C5 amended: the campground description is stripped via tag removal,
whitespace collapse and trimming (`stripHtml`, as on the spec's
example); a rich-text element concatenated by the generic aggregator
only has its tags replaced by spaces — no whitespace collapse — and only
the final aggregated block is trimmed at its ends. -/
theorem c5_markup_amended :
    (∀ (item : ContentItem) (slug : Option String) (s : String),
      getTextValue item "banner_body" = some s → s ≠ "" →
      (convertCampgroundToAlgolia item slug).description = some (stripHtml s)) ∧
    (∀ html : String, stripHtml html = jsTrim (collapseWsStr (replaceTagsStr html))) ∧
    stripHtml "<p>Hello&nbsp;<b>world</b></p>" = "Hello&nbsp; world" ∧
    (∀ (store : Store) (sc : String)
      (r : ContentItem → List String → List ContentBlock × List String)
      (key : String) (el : Element) (rest : List (String × Element))
      (c : String) (p pr : List String) (s : String),
      key ≠ "metadata" → el.type = "rich_text" → el.value = JValue.jstr s →
      goElements store sc r ((key, el) :: rest) (c, p, pr) =
        goElements store sc r rest (c ++ " " ++ replaceTagsStr s, p, pr)) := by
  refine ⟨fun item slug s hget hne => ?_, fun html => rfl, by decide,
    fun store sc r key el rest c p pr s hkey htype hval => ?_⟩
  · unfold convertCampgroundToAlgolia
    rw [hget]
    simp [hne]
  · simp [goElements, hkey, htype, hval]

/-- C5 amended witness: the campground part applied to the concrete
campground item, and the aggregator part applied to the concrete
rich-text element. -/
theorem c5_markup_amended_witness :
    (convertCampgroundToAlgolia campItem (some "camp")).description =
      some (stripHtml "<p>Hello&nbsp;<b>world</b></p>") ∧
    goElements [] "url" (fun _ pr => ([], pr))
        [("body", ⟨"rich_text", JValue.jstr "<p>a</p><p>b</p>"⟩)] ("", [], []) =
      goElements [] "url" (fun _ pr => ([], pr)) []
        ("" ++ " " ++ replaceTagsStr "<p>a</p><p>b</p>", [], []) :=
  ⟨c5_markup_amended.1 campItem (some "camp") "<p>Hello&nbsp;<b>world</b></p>" rfl (by decide),
    c5_markup_amended.2.2.2 [] "url" (fun _ pr => ([], pr)) "body"
      ⟨"rich_text", JValue.jstr "<p>a</p><p>b</p>"⟩ [] "" [] [] "<p>a</p><p>b</p>"
      (by decide) rfl rfl⟩

/-- C7: record construction dispatches on the type discriminator: a
`campground` item yields the structured record (whose `content` is
empty); any other type yields a generic record whose `content` is the
one-element block list (in particular non-empty). -/
theorem c7_variant_dispatch :
    ∀ (store : Store) (sc : String) (item : ContentItem),
      (item.system.type = "campground" →
        (∃ s, convertToAlgoliaItem store sc item = convertCampgroundToAlgolia item s) ∧
        (convertToAlgoliaItem store sc item).content = []) ∧
      (item.system.type ≠ "campground" →
        (convertToAlgoliaItem store sc item).content.length = 1) := by
  intro store sc item
  constructor
  · intro h
    constructor
    · refine ⟨(match getElementOf item sc with
        | some el => (match el.value with | JValue.jstr s => some s | _ => none)
        | none => none), ?_⟩
      unfold convertToAlgoliaItem
      rw [if_pos h]
    · unfold convertToAlgoliaItem
      rw [if_pos h]
      simp [convertCampgroundToAlgolia]
  · intro h
    unfold convertToAlgoliaItem
    rw [if_neg h]
    simp only []
    unfold createRecordBlocks
    rw [show store.length + 2 = (store.length + 1) + 1 from rfl,
      createRecordBlocksF_enter store sc (store.length + 1) item [] (by simp)]
    rfl

/-- C7 witness: the dispatch applied to the concrete campground item and
to the concrete generic item. -/
theorem c7_variant_dispatch_witness :
    (∃ s, convertToAlgoliaItem [] "url" campItem = convertCampgroundToAlgolia campItem s) ∧
    (convertToAlgoliaItem [] "url" campItem).content = [] ∧
    (convertToAlgoliaItem [] "url" richTextItem).content.length = 1 :=
  ⟨((c7_variant_dispatch [] "url" campItem).1 rfl).1,
    ((c7_variant_dispatch [] "url" campItem).1 rfl).2,
    (c7_variant_dispatch [] "url" richTextItem).2 (by decide)⟩

/-! ## Metadata skipping -/

theorem goElements_metadata_skip (store : Store) (sc : String)
    (r : ContentItem → List String → List ContentBlock × List String)
    (pre : List (String × Element)) (e : Element) (post : List (String × Element)) :
    ∀ st, goElements store sc r (pre ++ ("metadata", e) :: post) st =
      goElements store sc r (pre ++ post) st := by
  induction pre with
  | nil =>
    intro st
    simp [goElements]
  | cons head rest ih =>
    intro st
    obtain ⟨k, el⟩ := head
    by_cases hk : k = "metadata"
    · simp only [List.cons_append, goElements, if_pos hk]
      exact ih st
    · simp only [List.cons_append, goElements, if_neg hk]
      obtain ⟨c, p, pr⟩ := st
      exact ih _

/-- C10: an element whose codename is `metadata` contributes nothing to
the aggregation — neither text nor linked-item processing — whatever its
kind and value: dropping it leaves the result unchanged.  On the
concrete fixture, the `metadata` linked item is not even visited. -/
theorem c10_metadata_ignored :
    (∀ (store : Store) (sc : String) (fuel : Nat) (pr : List String)
      (sys : SystemInfo) (pre : List (String × Element)) (e : Element)
      (post : List (String × Element)),
      createRecordBlocksF store sc fuel ⟨sys, pre ++ ("metadata", e) :: post⟩ pr =
        createRecordBlocksF store sc fuel ⟨sys, pre ++ post⟩ pr) ∧
    createRecordBlocks slugStore "url" metadataItem [] =
      createRecordBlocks slugStore "url" metadataFreeItem [] ∧
    (createRecordBlocks slugStore "url" metadataItem []).2 = ["idM_en"] := by
  refine ⟨fun store sc fuel pr sys pre e post => ?_, by decide, by decide⟩
  cases fuel with
  | zero => rfl
  | succ fuel =>
    simp only [createRecordBlocksF, itemKey]
    rw [goElements_metadata_skip]

/-! ## JS `Map` / `Set` reduction lemmas -/

theorem flatten_map {α β : Type} (f : α → β) :
    ∀ l : List (List α), (l.map (List.map f)).flatten = l.flatten.map f := by
  intro l
  induction l with
  | nil => rfl
  | cons x xs ih => simp only [List.map_cons, List.flatten_cons, List.map_append, ih]

theorem jsSetOfList_concat (xs : List String) (x : String) :
    jsSetOfList (xs ++ [x]) =
      if x ∈ jsSetOfList xs then jsSetOfList xs else jsSetOfList xs ++ [x] := by
  simp [jsSetOfList, List.foldl_append]

theorem mem_jsSetOfList (xs : List String) : ∀ a, a ∈ jsSetOfList xs ↔ a ∈ xs := by
  induction xs using List.reverseRecOn with
  | nil => intro a; exact Iff.rfl
  | append_singleton xs x ih =>
    intro a
    rw [jsSetOfList_concat]
    by_cases hx : x ∈ jsSetOfList xs
    · rw [if_pos hx]
      constructor
      · intro h
        exact List.mem_append_left _ ((ih a).1 h)
      · intro h
        rcases List.mem_append.1 h with h | h
        · exact (ih a).2 h
        · have : a = x := by simpa using h
          exact this ▸ hx
    · rw [if_neg hx]
      simp only [List.mem_append, List.mem_singleton, ih a]

theorem nodup_jsSetOfList (xs : List String) : (jsSetOfList xs).Nodup := by
  induction xs using List.reverseRecOn with
  | nil => exact List.nodup_nil
  | append_singleton xs x ih =>
    rw [jsSetOfList_concat]
    by_cases hx : x ∈ jsSetOfList xs
    · rw [if_pos hx]; exact ih
    · rw [if_neg hx]
      simp [List.nodup_append, ih, hx]

theorem jsMapOfEntries_concat {α : Type} (es : List (String × α)) (kv : String × α) :
    jsMapOfEntries (es ++ [kv]) = jsMapUpsert (jsMapOfEntries es) kv := by
  simp [jsMapOfEntries, List.foldl_append]

theorem jsMapUpsert_any_iff {α : Type} (m : List (String × α)) (kv : String × α) :
    (m.any fun p => p.1 = kv.1) = true ↔ kv.1 ∈ m.map Prod.fst := by
  simp [List.any_eq_true]

theorem mem_jsMapUpsert {α : Type} (m : List (String × α)) (kv : String × α) :
    ∀ p ∈ jsMapUpsert m kv, p ∈ m ∨ p = kv := by
  intro p hp
  unfold jsMapUpsert at hp
  by_cases hany : (m.any fun q => q.1 = kv.1) = true
  · rw [if_pos hany] at hp
    rcases List.mem_map.1 hp with ⟨q, hq, he⟩
    by_cases hk : q.1 = kv.1
    · right
      rw [if_pos hk] at he
      rw [← he, hk]
    · left
      rw [if_neg hk] at he
      exact he ▸ hq
  · rw [if_neg hany] at hp
    rcases List.mem_append.1 hp with h | h
    · exact Or.inl h
    · exact Or.inr (by simpa using h)

theorem mem_jsMapOfEntries {α : Type} (es : List (String × α)) :
    ∀ p ∈ jsMapOfEntries es, p ∈ es := by
  induction es using List.reverseRecOn with
  | nil => intro p hp; simp [jsMapOfEntries] at hp
  | append_singleton es kv ih =>
    intro p hp
    rw [jsMapOfEntries_concat] at hp
    rcases mem_jsMapUpsert _ _ p hp with h | h
    · exact List.mem_append_left _ (ih p h)
    · exact List.mem_append_right _ (by simp [h])

theorem keys_jsMapUpsert {α : Type} (m : List (String × α)) (kv : String × α) :
    (jsMapUpsert m kv).map Prod.fst =
      if kv.1 ∈ m.map Prod.fst then m.map Prod.fst else m.map Prod.fst ++ [kv.1] := by
  unfold jsMapUpsert
  by_cases hany : (m.any fun q => q.1 = kv.1) = true
  · rw [if_pos hany, if_pos ((jsMapUpsert_any_iff m kv).1 hany)]
    rw [List.map_map]
    apply List.map_congr_left
    intro p _
    by_cases hk : p.1 = kv.1 <;> simp [hk]
  · rw [if_neg hany, if_neg (fun h => hany ((jsMapUpsert_any_iff m kv).2 h))]
    simp

theorem keys_jsMapOfEntries {α : Type} (es : List (String × α)) :
    (jsMapOfEntries es).map Prod.fst = jsSetOfList (es.map Prod.fst) := by
  induction es using List.reverseRecOn with
  | nil => rfl
  | append_singleton es kv ih =>
    rw [jsMapOfEntries_concat, keys_jsMapUpsert, ih, List.map_append,
      List.map_cons, List.map_nil, jsSetOfList_concat]

theorem getLast?_filter_jsMapOfEntries {α : Type} (es : List (String × α)) :
    ∀ k v, (k, v) ∈ jsMapOfEntries es →
      (es.filter fun p => p.1 = k).getLast? = some (k, v) := by
  induction es using List.reverseRecOn with
  | nil => intro k v hv; simp [jsMapOfEntries] at hv
  | append_singleton es kv ih =>
    intro k v hv
    rw [jsMapOfEntries_concat] at hv
    unfold jsMapUpsert at hv
    by_cases hany : ((jsMapOfEntries es).any fun q => q.1 = kv.1) = true
    · rw [if_pos hany] at hv
      rcases List.mem_map.1 hv with ⟨q, hq, he⟩
      by_cases hk : q.1 = kv.1
      · rw [if_pos hk] at he
        have hkk : k = kv.1 := by
          have := congrArg Prod.fst he
          simpa [hk] using this.symm
        have hvv : v = kv.2 := by
          have := congrArg Prod.snd he
          simpa using this.symm
        subst hkk
        subst hvv
        rw [List.filter_append]
        simp
      · rw [if_neg hk] at he
        have hq2 : (k, v) ∈ jsMapOfEntries es := he ▸ hq
        have hkk : k ≠ kv.1 := by
          have := congrArg Prod.fst he
          simp at this
          rw [← this]
          exact hk
        rw [List.filter_append]
        have hf : [kv].filter (fun p => p.1 = k) = [] := by
          simp [List.filter_cons, Ne.symm hkk]
        rw [hf, List.append_nil]
        exact ih k v hq2
    · rw [if_neg hany] at hv
      rcases List.mem_append.1 hv with h | h
      · have hkk : k ≠ kv.1 := by
          intro h2
          apply hany
          apply (jsMapUpsert_any_iff _ kv).2
          rw [← h2]
          exact List.mem_map.2 ⟨(k, v), h, rfl⟩
        rw [List.filter_append]
        have hf : [kv].filter (fun p => p.1 = k) = [] := by
          simp [List.filter_cons, Ne.symm hkk]
        rw [hf, List.append_nil]
        exact ih k v h
      · have : (k, v) = kv := by simpa using h
        subst this
        rw [List.filter_append]
        simp

theorem exists_value_jsMapOfEntries {α : Type} (es : List (String × α)) :
    ∀ k, k ∈ es.map Prod.fst → ∃ v, (k, v) ∈ jsMapOfEntries es := by
  intro k hk
  have hk2 : k ∈ (jsMapOfEntries es).map Prod.fst := by
    rw [keys_jsMapOfEntries]
    exact (mem_jsSetOfList _ k).2 hk
  rcases List.mem_map.1 hk2 with ⟨p, hp, he⟩
  refine ⟨p.2, ?_⟩
  have h2 : (k, p.2) = p := by
    rw [← he]
  rw [h2]
  exact hp

/-! ## Reducer characterisation -/

theorem reindex_entries_eq (actions : List ItemAction) :
    ((actions.map fun a => a.recordsToReindex.map fun i => (i.codename, i)).flatten) =
      ((actions.map fun a => a.recordsToReindex).flatten).map fun i => (i.codename, i) := by
  rw [← flatten_map, List.map_map]
  rfl

theorem recordsToReIndex_key_nodup (actions : List ItemAction) :
    ((recordsToReIndex actions).map (fun r => r.codename)).Nodup := by
  unfold recordsToReIndex
  rw [List.map_map]
  have hcong :
      ((jsMapOfEntries
          ((actions.map fun a => a.recordsToReindex.map fun i => (i.codename, i)).flatten)).map
        ((fun r => r.codename) ∘ fun p => p.2)) =
      ((jsMapOfEntries
          ((actions.map fun a => a.recordsToReindex.map fun i => (i.codename, i)).flatten)).map
        Prod.fst) := by
    apply List.map_congr_left
    intro p hp
    have hpE := mem_jsMapOfEntries _ p hp
    rw [reindex_entries_eq] at hpE
    rcases List.mem_map.1 hpE with ⟨i, _, he⟩
    rw [← he]
    rfl
  rw [hcong, keys_jsMapOfEntries]
  exact nodup_jsSetOfList _

theorem recordsToReIndex_last_wins (actions : List ItemAction) :
    ∀ r ∈ recordsToReIndex actions,
      (((actions.map fun a => a.recordsToReindex).flatten).filter
        (fun i => i.codename = r.codename)).getLast? = some r := by
  intro r hr
  unfold recordsToReIndex at hr
  rcases List.mem_map.1 hr with ⟨p, hp, he⟩
  have hpE := mem_jsMapOfEntries _ p hp
  rw [reindex_entries_eq] at hpE
  rcases List.mem_map.1 hpE with ⟨i, _, hei⟩
  have hfst : p.1 = p.2.codename := by
    rw [← hei]
  have hlast := getLast?_filter_jsMapOfEntries _ p.1 p.2 hp
  rw [reindex_entries_eq, List.filter_map, List.getLast?_map] at hlast
  have hpred :
      (((actions.map fun a => a.recordsToReindex).flatten).filter
        ((fun q => decide (q.1 = p.1)) ∘ fun i => (i.codename, i))) =
      (((actions.map fun a => a.recordsToReindex).flatten).filter
        (fun i => i.codename = r.codename)) := by
    apply List.filter_congr
    intro a _
    simp only [Function.comp]
    rw [← he, ← hfst]
  rw [hpred] at hlast
  cases ho : (((actions.map fun a => a.recordsToReindex).flatten).filter
      (fun i => i.codename = r.codename)).getLast? with
  | none =>
    rw [ho] at hlast
    simp at hlast
  | some i0 =>
    rw [ho] at hlast
    have h3 : (i0.codename, i0) = (p.1, p.2) := by
      simpa using hlast
    have h4 : i0 = p.2 := congrArg Prod.snd h3
    rw [h4, he]

theorem recordsToReIndex_complete (actions : List ItemAction) :
    ∀ i ∈ ((actions.map fun a => a.recordsToReindex).flatten),
      ∃ r ∈ recordsToReIndex actions, r.codename = i.codename := by
  intro i hi
  have hk : i.codename ∈
      (((actions.map fun a => a.recordsToReindex.map fun j => (j.codename, j)).flatten).map
        Prod.fst) := by
    rw [reindex_entries_eq, List.map_map]
    exact List.mem_map.2 ⟨i, hi, rfl⟩
  rcases exists_value_jsMapOfEntries _ _ hk with ⟨v, hv⟩
  refine ⟨v, ?_, ?_⟩
  · unfold recordsToReIndex
    exact List.mem_map.2 ⟨(i.codename, v), hv, rfl⟩
  · have hpE := mem_jsMapOfEntries _ _ hv
    rw [reindex_entries_eq] at hpE
    rcases List.mem_map.1 hpE with ⟨j, _, hej⟩
    have h1 : j.codename = i.codename := congrArg Prod.fst hej
    have h2 : j = v := congrArg Prod.snd hej
    rw [← h2, h1]

/-- C1 counterexample: the reducer deduplicates by `codename`, not by
`objectID`.  Two per-notification records with the same codename but
distinct `objectID`s (same item in two languages) collapse to one entry:
the first record — despite its distinct `objectID` — is dropped. -/
theorem c1_counterexample :
    dupRecordEn.objectID ≠ dupRecordDe.objectID ∧
    dupRecordEn ∈ ((dupActions.map fun a => a.recordsToReindex).flatten) ∧
    recordsToReIndex dupActions = [dupRecordDe] ∧
    dupRecordEn ∉ recordsToReIndex dupActions := by
  decide

/-- C1 amended: the reducer deduplicates the records to upsert by
`codename` (not by `objectID`): per codename exactly one entry survives,
the later record in the batch wins, and every record contributes its
codename — records with distinct codenames are never merged or dropped. -/
theorem c1_dedupe_amended (actions : List ItemAction) :
    ((recordsToReIndex actions).map (fun r => r.codename)).Nodup ∧
    (∀ r ∈ recordsToReIndex actions,
      (((actions.map fun a => a.recordsToReindex).flatten).filter
        (fun i => i.codename = r.codename)).getLast? = some r) ∧
    (∀ i ∈ ((actions.map fun a => a.recordsToReindex).flatten),
      ∃ r ∈ recordsToReIndex actions, r.codename = i.codename) :=
  ⟨recordsToReIndex_key_nodup actions, recordsToReIndex_last_wins actions,
    recordsToReIndex_complete actions⟩

/-- C1 amended witness: the dedup behaviour applied to the concrete
duplicate-codename batch. -/
theorem c1_dedupe_amended_witness :
    ((recordsToReIndex dupActions).map (fun r => r.codename)).Nodup ∧
    (((dupActions.map fun a => a.recordsToReindex).flatten).filter
      (fun i => i.codename = dupRecordDe.codename)).getLast? = some dupRecordDe ∧
    (∃ r ∈ recordsToReIndex dupActions, r.codename = dupRecordEn.codename) :=
  ⟨(c1_dedupe_amended dupActions).1,
    (c1_dedupe_amended dupActions).2.1 dupRecordDe (by decide),
    (c1_dedupe_amended dupActions).2.2 dupRecordEn (by decide)⟩

/-! ## Fan-out lemmas -/

theorem processNotifications_append (store : Store) (fetch : DeliveryFetch) (slug : String)
    (l1 l2 : List WebhookNotification) :
    processNotifications store fetch slug (l1 ++ l2) =
      processNotifications store fetch slug l1 ++ processNotifications store fetch slug l2 := by
  unfold processNotifications
  rw [List.filter_append, List.map_append, List.flatten_append]

theorem processNotifications_cons_item (store : Store) (fetch : DeliveryFetch) (slug : String)
    (n : WebhookNotification) (l : List WebhookNotification)
    (hn : n.objectType = "content_item") :
    processNotifications store fetch slug (n :: l) =
      updateItem store (fetch n.environmentId) slug n.codename n.language ++
        processNotifications store fetch slug l := by
  unfold processNotifications
  rw [List.filter_cons]
  simp [hn, isItemNotification]

theorem processNotifications_cons_nonitem (store : Store) (fetch : DeliveryFetch) (slug : String)
    (n : WebhookNotification) (l : List WebhookNotification)
    (hn : ¬ n.objectType = "content_item") :
    processNotifications store fetch slug (n :: l) = processNotifications store fetch slug l := by
  unfold processNotifications
  rw [List.filter_cons, if_neg (by simp [hn])]

theorem recordsToReIndex_noop (X Y : List ItemAction) :
    recordsToReIndex (X ++ { objectIdsToRemove := [], recordsToReindex := [] } :: Y) =
      recordsToReIndex (X ++ Y) := by
  unfold recordsToReIndex
  have h : ((X ++ { objectIdsToRemove := [], recordsToReindex := [] } :: Y).map
        fun a => a.recordsToReindex.map fun i => (i.codename, i)).flatten =
      ((X ++ Y).map fun a => a.recordsToReindex.map fun i => (i.codename, i)).flatten := by
    simp
  rw [h]

theorem objectIdsToRemove_noop (X Y : List ItemAction) :
    objectIdsToRemove (X ++ { objectIdsToRemove := [], recordsToReindex := [] } :: Y) =
      objectIdsToRemove (X ++ Y) := by
  unfold objectIdsToRemove
  have h : ((X ++ { objectIdsToRemove := [], recordsToReindex := [] } :: Y).map
        fun a => a.objectIdsToRemove).flatten =
      ((X ++ Y).map fun a => a.objectIdsToRemove).flatten := by
    simp
  rw [h]

/-- C2: when the delivery fetch for a notification throws (not-found,
network, timeout), graph resolution returns the empty map instead of
propagating, the notification's result is the no-op action, and the
whole batch equals the batch computed without that notification — the
failure neither aborts processing nor changes any other notification's
outcome. -/
theorem c2_fetch_failure :
    ∀ (store : Store) (fetch : DeliveryFetch) (slug : String)
      (pre post : List WebhookNotification) (n : WebhookNotification),
      fetch n.environmentId n.codename n.language = none →
      findDeliveryItemWithChildrenByCodename (fetch n.environmentId) n.codename n.language = [] ∧
      updateItem store (fetch n.environmentId) slug n.codename n.language =
        [{ objectIdsToRemove := [], recordsToReindex := [] }] ∧
      handlerBatch store fetch slug (pre ++ n :: post) =
        handlerBatch store fetch slug (pre ++ post) := by
  intro store fetch slug pre post n h
  have h1 : findDeliveryItemWithChildrenByCodename (fetch n.environmentId) n.codename n.language
      = [] := by
    unfold findDeliveryItemWithChildrenByCodename
    rw [h]
  have h2 : updateItem store (fetch n.environmentId) slug n.codename n.language =
      [{ objectIdsToRemove := [], recordsToReindex := [] }] := by
    unfold updateItem
    rw [h1]
    rfl
  refine ⟨h1, h2, ?_⟩
  by_cases hn : n.objectType = "content_item"
  · unfold handlerBatch
    rw [processNotifications_append, processNotifications_cons_item store fetch slug n post hn,
      h2, processNotifications_append, List.singleton_append]
    simp only [recordsToReIndex_noop, objectIdsToRemove_noop]
  · unfold handlerBatch
    rw [processNotifications_append, processNotifications_cons_nonitem store fetch slug n post hn,
      processNotifications_append]

/-- C2 witness: the failure isolation applied to a concrete batch where
the fetch for the first notification throws and the second notification
succeeds; the final batch still carries the second record. -/
theorem c2_fetch_failure_witness :
    findDeliveryItemWithChildrenByCodename (flakyFetch notifP.environmentId)
      notifP.codename notifP.language = [] ∧
    updateItem [] (flakyFetch notifP.environmentId) "url" notifP.codename notifP.language =
      [{ objectIdsToRemove := [], recordsToReindex := [] }] ∧
    handlerBatch [] flakyFetch "url" ([] ++ notifP :: [notifQ]) =
      handlerBatch [] flakyFetch "url" ([] ++ [notifQ]) ∧
    ((handlerBatch [] flakyFetch "url" [notifP, notifQ]).recordsToReIndex.map
      (fun r => r.codename)) = ["qa"] :=
  ⟨(c2_fetch_failure [] flakyFetch "url" [] [notifQ] notifP (by decide)).1,
    (c2_fetch_failure [] flakyFetch "url" [] [notifQ] notifP (by decide)).2.1,
    (c2_fetch_failure [] flakyFetch "url" [] [notifQ] notifP (by decide)).2.2,
    by decide⟩

/-- C8: in the batch handler, every item-change notification of the
payload — wherever it sits in the list — has its resolve-and-build
result spliced into the action list, and each record it produces reaches
the reduction: some record with its codename appears in the final write
batch. -/
theorem c8_fan_out :
    ∀ (store : Store) (fetch : DeliveryFetch) (slug : String)
      (pre post : List WebhookNotification) (n : WebhookNotification),
      n.objectType = "content_item" →
      List.IsInfix (updateItem store (fetch n.environmentId) slug n.codename n.language)
        (processNotifications store fetch slug (pre ++ n :: post)) ∧
      (∀ a ∈ updateItem store (fetch n.environmentId) slug n.codename n.language,
        ∀ r ∈ a.recordsToReindex,
        ∃ r2 ∈ (handlerBatch store fetch slug (pre ++ n :: post)).recordsToReIndex,
          r2.codename = r.codename) := by
  intro store fetch slug pre post n hn
  have hsplit : processNotifications store fetch slug (pre ++ n :: post) =
      processNotifications store fetch slug pre ++
        (updateItem store (fetch n.environmentId) slug n.codename n.language ++
          processNotifications store fetch slug post) := by
    rw [processNotifications_append, processNotifications_cons_item store fetch slug n post hn]
  constructor
  · exact ⟨processNotifications store fetch slug pre,
      processNotifications store fetch slug post,
      by rw [hsplit, List.append_assoc]⟩
  · intro a ha r hr
    have hmem : r ∈ (((processNotifications store fetch slug (pre ++ n :: post)).map
        fun a2 => a2.recordsToReindex).flatten) := by
      rw [hsplit]
      refine List.mem_flatten.2 ⟨a.recordsToReindex, ?_, hr⟩
      refine List.mem_map.2 ⟨a, ?_, rfl⟩
      exact List.mem_append_right _ (List.mem_append_left _ ha)
    have hc := recordsToReIndex_complete
      (processNotifications store fetch slug (pre ++ n :: post)) r hmem
    simpa [handlerBatch] using hc

/-- C8 witness: both records of a two-notification payload survive into
the final batch, and the first notification's result is an infix of the
action list. -/
theorem c8_fan_out_witness :
    List.IsInfix (updateItem [] (demoFetch notifP.environmentId) "url"
        notifP.codename notifP.language)
      (processNotifications [] demoFetch "url" ([] ++ notifP :: [notifQ])) ∧
    ((handlerBatch [] demoFetch "url" [notifP, notifQ]).recordsToReIndex.map
      (fun r => r.codename)) = ["pa", "qa"] :=
  ⟨(c8_fan_out [] demoFetch "url" [] [notifQ] notifP rfl).1, by decide⟩

/-! ## Aggregation: the visited set only grows -/

theorem goEntries_processed_mono (store : Store) (sc : String)
    (r : ContentItem → List String → List ContentBlock × List String)
    (hr : ∀ it pr, pr ⊆ (r it pr).2) :
    ∀ (xs : List JEntry) (st : RBState), st.2.2 ⊆ (goEntries store sc r xs st).2.2 := by
  intro xs
  induction xs with
  | nil => intro st; exact fun a ha => ha
  | cons e rest ih =>
    intro st
    cases e with
    | jterm c =>
      simp only [goEntries]
      exact ih st
    | jitem ref =>
      cases hl : store[ref]? with
      | none =>
        simp only [goEntries, hl]
        exact ih st
      | some li =>
        obtain ⟨c, p, pr⟩ := st
        simp only [goEntries, hl]
        by_cases hs : hasSlugValue sc li = true
        · rw [if_pos hs]
          exact ih (c, p ++ [li.system.id], pr)
        · rw [if_neg hs]
          rcases hrec : r li pr with ⟨bs, pr2⟩
          have hsub : pr ⊆ pr2 := by
            have := hr li pr
            rw [hrec] at this
            exact this
          exact fun a ha =>
            ih (c ++ " " ++ String.intercalate " " (bs.map fun b => b.contents), p, pr2) (hsub ha)

theorem goElements_processed_mono (store : Store) (sc : String)
    (r : ContentItem → List String → List ContentBlock × List String)
    (hr : ∀ it pr, pr ⊆ (r it pr).2) :
    ∀ (es : List (String × Element)) (st : RBState),
      st.2.2 ⊆ (goElements store sc r es st).2.2 := by
  intro es
  induction es with
  | nil => intro st; exact fun a ha => ha
  | cons kv rest ih =>
    intro st
    obtain ⟨key, el⟩ := kv
    by_cases hk : key = "metadata"
    · simp only [goElements, if_pos hk]
      exact ih st
    · obtain ⟨c, p, pr⟩ := st
      cases hv : el.value with
      | jstr s =>
        simp only [goElements, if_neg hk, hv]
        exact ih (c ++ " " ++ (if el.type = "rich_text" then replaceTagsStr s else s), p, pr)
      | jnum n =>
        simp only [goElements, if_neg hk, hv]
        exact ih (c, p, pr)
      | jundef =>
        simp only [goElements, if_neg hk, hv]
        exact ih (c, p, pr)
      | jarr entries =>
        simp only [goElements, if_neg hk, hv]
        by_cases ht : el.type = "modular_content"
        · rw [if_pos ht]
          intro a ha
          exact ih (goEntries store sc r entries (c, p, pr))
            (goEntries_processed_mono store sc r hr entries (c, p, pr) ha)
        · rw [if_neg ht]
          exact ih (c, p, pr)

theorem createRecordBlocksF_processed_mono (store : Store) (sc : String) :
    ∀ (fuel : Nat) (it : ContentItem) (pr : List String),
      pr ⊆ (createRecordBlocksF store sc fuel it pr).2 := by
  intro fuel
  induction fuel with
  | zero => intro it pr; exact fun a ha => ha
  | succ fuel ih =>
    intro it pr
    by_cases hmem : itemKey it ∈ pr
    · rw [createRecordBlocksF_mem store sc fuel it pr hmem]
      exact fun a ha => ha
    · rw [createRecordBlocksF_enter store sc fuel it pr hmem]
      intro a ha
      exact goElements_processed_mono store sc _ ih it.elements
        ("", [], itemKey it :: pr) (List.mem_cons_of_mem _ ha)

/-! ## Aggregation: every key is visited at most once -/

theorem newKeys_nil (pr : List String) : NewKeys pr pr [] :=
  ⟨rfl, List.nodup_nil, by simp⟩

theorem newKeys_trans {pr pr2 pr3 n1 n2 : List String} :
    NewKeys pr pr2 n1 → NewKeys pr2 pr3 n2 → NewKeys pr pr3 (n2 ++ n1) := by
  rintro ⟨he1, hn1, hd1⟩ ⟨he2, hn2, hd2⟩
  refine ⟨by rw [he2, he1, List.append_assoc], ?_, ?_⟩
  · rw [List.nodup_append]
    refine ⟨hn2, hn1, ?_⟩
    intro a ha2 ha1
    exact hd2 a ha2 (by rw [he1]; exact List.mem_append_left _ ha1)
  · intro k hk
    rcases List.mem_append.1 hk with h | h
    · intro hkpr
      exact hd2 k h (by rw [he1]; exact List.mem_append_right _ hkpr)
    · exact hd1 k h

theorem goEntries_newKeys (store : Store) (sc : String)
    (r : ContentItem → List String → List ContentBlock × List String)
    (hr : ∀ it pr, ∃ news, NewKeys pr (r it pr).2 news) :
    ∀ (xs : List JEntry) (st : RBState),
      ∃ news, NewKeys st.2.2 (goEntries store sc r xs st).2.2 news := by
  intro xs
  induction xs with
  | nil => intro st; exact ⟨[], newKeys_nil _⟩
  | cons e rest ih =>
    intro st
    cases e with
    | jterm c =>
      simp only [goEntries]
      exact ih st
    | jitem ref =>
      cases hl : store[ref]? with
      | none =>
        simp only [goEntries, hl]
        exact ih st
      | some li =>
        obtain ⟨c, p, pr⟩ := st
        simp only [goEntries, hl]
        by_cases hs : hasSlugValue sc li = true
        · rw [if_pos hs]
          exact ih (c, p ++ [li.system.id], pr)
        · rw [if_neg hs]
          rcases hrec : r li pr with ⟨bs, pr2⟩
          have h1 : ∃ news, NewKeys pr pr2 news := by
            rcases hr li pr with ⟨news, hn⟩
            rw [hrec] at hn
            exact ⟨news, hn⟩
          rcases h1 with ⟨news1, hn1⟩
          rcases ih (c ++ " " ++ String.intercalate " " (bs.map fun b => b.contents), p, pr2)
            with ⟨news2, hn2⟩
          exact ⟨news2 ++ news1, newKeys_trans hn1 hn2⟩

theorem goElements_newKeys (store : Store) (sc : String)
    (r : ContentItem → List String → List ContentBlock × List String)
    (hr : ∀ it pr, ∃ news, NewKeys pr (r it pr).2 news) :
    ∀ (es : List (String × Element)) (st : RBState),
      ∃ news, NewKeys st.2.2 (goElements store sc r es st).2.2 news := by
  intro es
  induction es with
  | nil => intro st; exact ⟨[], newKeys_nil _⟩
  | cons kv rest ih =>
    intro st
    obtain ⟨key, el⟩ := kv
    by_cases hk : key = "metadata"
    · simp only [goElements, if_pos hk]
      exact ih st
    · obtain ⟨c, p, pr⟩ := st
      cases hv : el.value with
      | jstr s =>
        simp only [goElements, if_neg hk, hv]
        exact ih (c ++ " " ++ (if el.type = "rich_text" then replaceTagsStr s else s), p, pr)
      | jnum n =>
        simp only [goElements, if_neg hk, hv]
        exact ih (c, p, pr)
      | jundef =>
        simp only [goElements, if_neg hk, hv]
        exact ih (c, p, pr)
      | jarr entries =>
        simp only [goElements, if_neg hk, hv]
        by_cases ht : el.type = "modular_content"
        · rw [if_pos ht]
          rcases goEntries_newKeys store sc r hr entries (c, p, pr) with ⟨news1, hn1⟩
          rcases ih (goEntries store sc r entries (c, p, pr)) with ⟨news2, hn2⟩
          exact ⟨news2 ++ news1, newKeys_trans hn1 hn2⟩
        · rw [if_neg ht]
          exact ih (c, p, pr)

theorem createRecordBlocksF_newKeys (store : Store) (sc : String) :
    ∀ (fuel : Nat) (it : ContentItem) (pr : List String),
      ∃ news, NewKeys pr (createRecordBlocksF store sc fuel it pr).2 news := by
  intro fuel
  induction fuel with
  | zero => intro it pr; exact ⟨[], newKeys_nil _⟩
  | succ fuel ih =>
    intro it pr
    by_cases hmem : itemKey it ∈ pr
    · rw [createRecordBlocksF_mem store sc fuel it pr hmem]
      exact ⟨[], newKeys_nil _⟩
    · rw [createRecordBlocksF_enter store sc fuel it pr hmem]
      have h1 : NewKeys pr (itemKey it :: pr) [itemKey it] := by
        refine ⟨rfl, List.nodup_singleton _, ?_⟩
        intro k hk
        have : k = itemKey it := by simpa using hk
        rw [this]
        exact hmem
      rcases goElements_newKeys store sc _ ih it.elements ("", [], itemKey it :: pr)
        with ⟨news2, hn2⟩
      exact ⟨news2 ++ [itemKey it], newKeys_trans h1 hn2⟩

/-! ## Aggregation: the result stabilises once the fuel is large enough -/

theorem filter_length_le {α : Type} (p q : α → Bool) :
    ∀ l : List α, (∀ a ∈ l, q a = true → p a = true) →
      (l.filter q).length ≤ (l.filter p).length := by
  intro l
  induction l with
  | nil => intro _; exact Nat.le_refl _
  | cons a l ih =>
    intro h
    have hrest : ∀ b ∈ l, q b = true → p b = true :=
      fun b hb => h b (List.mem_cons_of_mem _ hb)
    cases hq : q a with
    | true =>
      have hp : p a = true := h a (List.mem_cons_self _ _) hq
      simp only [List.filter_cons, hq, hp, if_pos, List.length_cons]
      exact Nat.succ_le_succ (ih hrest)
    | false =>
      cases hp : p a with
      | true =>
        simp only [List.filter_cons, hq, hp]
        simp only [Bool.false_eq_true, if_neg, if_pos, List.length_cons]
        exact Nat.le_trans (ih hrest) (Nat.le_succ _)
      | false =>
        simp only [List.filter_cons, hq, hp]
        simp only [Bool.false_eq_true, if_neg]
        exact ih hrest

theorem filter_length_lt {α : Type} (p q : α → Bool) :
    ∀ l : List α, (∀ a ∈ l, q a = true → p a = true) →
      ∀ b ∈ l, p b = true → q b = false →
      (l.filter q).length < (l.filter p).length := by
  intro l
  induction l with
  | nil => intro _ b hb; cases hb
  | cons a l ih =>
    intro h b hb hpb hqb
    have hrest : ∀ x ∈ l, q x = true → p x = true :=
      fun x hx => h x (List.mem_cons_of_mem _ hx)
    rcases List.mem_cons.1 hb with hba | hbl
    · subst hba
      simp only [List.filter_cons, hqb, hpb, Bool.false_eq_true, if_neg, if_pos,
        List.length_cons]
      exact Nat.lt_succ_of_le (filter_length_le p q l hrest)
    · cases hq : q a with
      | true =>
        have hp : p a = true := h a (List.mem_cons_self _ _) hq
        simp only [List.filter_cons, hq, hp, if_pos, List.length_cons]
        exact Nat.succ_lt_succ (ih hrest b hbl hpb hqb)
      | false =>
        cases hp : p a with
        | true =>
          simp only [List.filter_cons, hq, hp, Bool.false_eq_true, if_neg, if_pos,
            List.length_cons]
          exact Nat.lt_succ_of_lt (ih hrest b hbl hpb hqb)
        | false =>
          simp only [List.filter_cons, hq, hp, Bool.false_eq_true, if_neg]
          exact ih hrest b hbl hpb hqb

theorem availCount_le_of_subset (store : Store) {pr1 pr2 : List String}
    (h : pr1 ⊆ pr2) : availCount store pr2 ≤ availCount store pr1 := by
  apply filter_length_le
  intro a _ hq
  simp only [decide_eq_true_eq] at hq ⊢
  exact fun ha1 => hq (h ha1)

theorem availCount_lt (store : Store) {pr : List String} {k : String}
    (hk : k ∈ store.map itemKey) (hknot : k ∉ pr) :
    availCount store (k :: pr) < availCount store pr := by
  apply filter_length_lt _ _ _ _ k (List.mem_dedup.2 hk)
  · exact decide_eq_true hknot
  · simp
  · intro a _ hq
    simp only [decide_eq_true_eq] at hq ⊢
    exact fun ha => hq (List.mem_cons_of_mem _ ha)

theorem availCount_pos (store : Store) {pr : List String} {k : String}
    (hk : k ∈ store.map itemKey) (hknot : k ∉ pr) : 0 < availCount store pr := by
  have hmem : k ∈ ((store.map itemKey).dedup.filter fun x => decide (x ∉ pr)) :=
    List.mem_filter.2 ⟨List.mem_dedup.2 hk, decide_eq_true hknot⟩
  exact List.length_pos.2 (List.ne_nil_of_mem hmem)

theorem availCount_le_store_length (store : Store) (pr : List String) :
    availCount store pr ≤ store.length := by
  calc availCount store pr ≤ (store.map itemKey).dedup.length := List.length_filter_le _ _
    _ ≤ (store.map itemKey).length := (List.dedup_sublist _).length_le
    _ = store.length := List.length_map _ _

theorem goEntries_congr (store : Store) (sc : String)
    (r1 r2 : ContentItem → List String → List ContentBlock × List String)
    (P0 : List String)
    (hmono : ∀ it pr, pr ⊆ (r1 it pr).2)
    (hagree : ∀ (ref : Nat) (li : ContentItem) (pr : List String),
      store[ref]? = some li → P0 ⊆ pr → r1 li pr = r2 li pr) :
    ∀ (xs : List JEntry) (st : RBState), P0 ⊆ st.2.2 →
      goEntries store sc r1 xs st = goEntries store sc r2 xs st := by
  intro xs
  induction xs with
  | nil => intro st _; rfl
  | cons e rest ih =>
    intro st hst
    cases e with
    | jterm c =>
      simp only [goEntries]
      exact ih st hst
    | jitem ref =>
      cases hl : store[ref]? with
      | none =>
        simp only [goEntries, hl]
        exact ih st hst
      | some li =>
        obtain ⟨c, p, pr⟩ := st
        simp only [goEntries, hl]
        by_cases hs : hasSlugValue sc li = true
        · simp only [if_pos hs]
          exact ih (c, p ++ [li.system.id], pr) hst
        · simp only [if_neg hs]
          have hag := hagree ref li pr hl hst
          rw [← hag]
          rcases hrec : r1 li pr with ⟨bs, pr2⟩
          have hsub2 : P0 ⊆ pr2 := by
            intro a ha
            have := hmono li pr (hst ha)
            rw [hrec] at this
            exact this
          exact ih (c ++ " " ++ String.intercalate " " (bs.map fun b => b.contents), p, pr2) hsub2

theorem goElements_congr (store : Store) (sc : String)
    (r1 r2 : ContentItem → List String → List ContentBlock × List String)
    (P0 : List String)
    (hmono : ∀ it pr, pr ⊆ (r1 it pr).2)
    (hagree : ∀ (ref : Nat) (li : ContentItem) (pr : List String),
      store[ref]? = some li → P0 ⊆ pr → r1 li pr = r2 li pr) :
    ∀ (es : List (String × Element)) (st : RBState), P0 ⊆ st.2.2 →
      goElements store sc r1 es st = goElements store sc r2 es st := by
  intro es
  induction es with
  | nil => intro st _; rfl
  | cons kv rest ih =>
    intro st hst
    obtain ⟨key, el⟩ := kv
    by_cases hk : key = "metadata"
    · simp only [goElements, if_pos hk]
      exact ih st hst
    · obtain ⟨c, p, pr⟩ := st
      cases hv : el.value with
      | jstr s =>
        simp only [goElements, if_neg hk, hv]
        exact ih (c ++ " " ++ (if el.type = "rich_text" then replaceTagsStr s else s), p, pr) hst
      | jnum n =>
        simp only [goElements, if_neg hk, hv]
        exact ih (c, p, pr) hst
      | jundef =>
        simp only [goElements, if_neg hk, hv]
        exact ih (c, p, pr) hst
      | jarr entries =>
        simp only [goElements, if_neg hk, hv]
        by_cases ht : el.type = "modular_content"
        · simp only [if_pos ht]
          rw [goEntries_congr store sc r1 r2 P0 hmono hagree entries (c, p, pr) hst]
          apply ih
          rw [← goEntries_congr store sc r1 r2 P0 hmono hagree entries (c, p, pr) hst]
          intro a ha
          exact goEntries_processed_mono store sc r1 hmono entries (c, p, pr) (hst ha)
        · simp only [if_neg ht]
          exact ih (c, p, pr) hst

theorem createRecordBlocksF_stable (store : Store) (sc : String) :
    ∀ (N : Nat) (it : ContentItem) (pr : List String) (f1 f2 : Nat),
      it ∈ store → availCount store pr ≤ N → N < f1 → N < f2 →
      createRecordBlocksF store sc f1 it pr = createRecordBlocksF store sc f2 it pr := by
  intro N
  induction N with
  | zero =>
    intro it pr f1 f2 hit hav hf1 hf2
    cases f1 with
    | zero => omega
    | succ a =>
      cases f2 with
      | zero => omega
      | succ b =>
        by_cases hmem : itemKey it ∈ pr
        · rw [createRecordBlocksF_mem store sc a it pr hmem,
            createRecordBlocksF_mem store sc b it pr hmem]
        · exfalso
          have hkey : itemKey it ∈ store.map itemKey := List.mem_map.2 ⟨it, hit, rfl⟩
          have := availCount_pos store hkey hmem
          omega
  | succ N ih =>
    intro it pr f1 f2 hit hav hf1 hf2
    cases f1 with
    | zero => omega
    | succ a =>
      cases f2 with
      | zero => omega
      | succ b =>
        by_cases hmem : itemKey it ∈ pr
        · rw [createRecordBlocksF_mem store sc a it pr hmem,
            createRecordBlocksF_mem store sc b it pr hmem]
        · rw [createRecordBlocksF_enter store sc a it pr hmem,
            createRecordBlocksF_enter store sc b it pr hmem]
          have hkey : itemKey it ∈ store.map itemKey := List.mem_map.2 ⟨it, hit, rfl⟩
          have hlt : availCount store (itemKey it :: pr) < availCount store pr :=
            availCount_lt store hkey hmem
          have hgo : goElements store sc (createRecordBlocksF store sc a) it.elements
              ("", [], itemKey it :: pr) =
              goElements store sc (createRecordBlocksF store sc b) it.elements
              ("", [], itemKey it :: pr) := by
            apply goElements_congr store sc _ _ (itemKey it :: pr)
              (createRecordBlocksF_processed_mono store sc a)
            · intro ref li pr2 href hsub
              have hli : li ∈ store := by
                have := List.getElem?_mem href
                exact this
              have hav2 : availCount store pr2 ≤ N := by
                have h1 := availCount_le_of_subset store hsub
                omega
              exact ih li pr2 a b hli hav2 (by omega) (by omega)
            · exact fun a ha => ha
          rw [hgo]

/-- C3: for every link graph — cyclic ones included — the flattening
terminates: any fuel beyond the store size yields the same result (the
recursion stabilises), and the visited set grows by pairwise-distinct
fresh `id_language` keys only, i.e. no (id, language) pair is ever
visited twice, so each visited item contributes its text exactly once. -/
theorem c3_cycle_safe :
    ∀ (store : Store) (sc : String) (item : ContentItem) (pr : List String) (f1 f2 : Nat),
      item ∈ store → store.length + 1 ≤ f1 → store.length + 1 ≤ f2 →
      (createRecordBlocksF store sc f1 item pr = createRecordBlocksF store sc f2 item pr) ∧
      ∃ news, NewKeys pr (createRecordBlocksF store sc f1 item pr).2 news := by
  intro store sc item pr f1 f2 hit h1 h2
  constructor
  · exact createRecordBlocksF_stable store sc store.length item pr f1 f2 hit
      (availCount_le_store_length store pr) (by omega) (by omega)
  · exact createRecordBlocksF_newKeys store sc f1 item pr

/-- C3 witness: on the concrete cyclic graph A→B→A the flattening result
is fuel-independent, the visited keys are fresh and distinct, A's and
B's text each appear exactly once, and both keys were visited once. -/
theorem c3_cycle_safe_witness :
    cycItemA ∈ cycStore ∧ cycStore.length + 1 ≤ 3 ∧
    (createRecordBlocksF cycStore "url" 3 cycItemA [] =
      createRecordBlocksF cycStore "url" 50 cycItemA []) ∧
    (∃ news, NewKeys [] (createRecordBlocksF cycStore "url" 3 cycItemA []).2 news) ∧
    ((createRecordBlocks cycStore "url" cycItemA []).1.map fun b => b.contents) =
      ["Atext Btext"] ∧
    (createRecordBlocks cycStore "url" cycItemA []).2 = ["idB_en", "idA_en"] :=
  ⟨by decide, by decide,
    (c3_cycle_safe cycStore "url" cycItemA [] 3 50 (by decide) (by decide) (by decide)).1,
    (c3_cycle_safe cycStore "url" cycItemA [] 3 50 (by decide) (by decide) (by decide)).2,
    by decide, by decide⟩

/-! ## Slug filtering: parents and never-inlined slugged items -/

theorem goEntries_parents (store : Store) (sc : String)
    (r : ContentItem → List String → List ContentBlock × List String) :
    ∀ (xs : List JEntry) (st : RBState),
      (goEntries store sc r xs st).2.1 = st.2.1 ++ sluggedIdsOfEntries store sc xs := by
  intro xs
  induction xs with
  | nil => intro st; simp [goEntries, sluggedIdsOfEntries]
  | cons e rest ih =>
    intro st
    cases e with
    | jterm c =>
      simp only [goEntries, sluggedIdsOfEntries]
      exact ih st
    | jitem ref =>
      cases hl : store[ref]? with
      | none =>
        simp only [goEntries, sluggedIdsOfEntries, hl]
        exact ih st
      | some li =>
        obtain ⟨c, p, pr⟩ := st
        simp only [goEntries, sluggedIdsOfEntries, hl]
        by_cases hs : hasSlugValue sc li = true
        · simp only [if_pos hs]
          rw [ih (c, p ++ [li.system.id], pr)]
          simp
        · simp only [if_neg hs]
          rcases hrec : r li pr with ⟨bs, pr2⟩
          exact ih (c ++ " " ++ String.intercalate " " (bs.map fun b => b.contents), p, pr2)

theorem goElements_parents (store : Store) (sc : String)
    (r : ContentItem → List String → List ContentBlock × List String) :
    ∀ (es : List (String × Element)) (st : RBState),
      (goElements store sc r es st).2.1 = st.2.1 ++ sluggedIdsOfElements store sc es := by
  intro es
  induction es with
  | nil => intro st; simp [goElements, sluggedIdsOfElements]
  | cons kv rest ih =>
    intro st
    obtain ⟨key, el⟩ := kv
    by_cases hk : key = "metadata"
    · simp only [goElements, sluggedIdsOfElements, if_pos hk]
      rw [ih st]
      simp
    · obtain ⟨c, p, pr⟩ := st
      cases hv : el.value with
      | jstr s =>
        simp only [goElements, sluggedIdsOfElements, if_neg hk, hv]
        rw [ih (c ++ " " ++ (if el.type = "rich_text" then replaceTagsStr s else s), p, pr)]
        simp
      | jnum n =>
        simp only [goElements, sluggedIdsOfElements, if_neg hk, hv]
        rw [ih (c, p, pr)]
        simp
      | jundef =>
        simp only [goElements, sluggedIdsOfElements, if_neg hk, hv]
        rw [ih (c, p, pr)]
        simp
      | jarr entries =>
        simp only [goElements, sluggedIdsOfElements, if_neg hk, hv]
        by_cases ht : el.type = "modular_content"
        · simp only [if_pos ht]
          rw [ih (goEntries store sc r entries (c, p, pr)),
            goEntries_parents store sc r entries (c, p, pr)]
          simp
        · simp only [if_neg ht]
          rw [ih (c, p, pr)]
          simp

theorem mem_sluggedIdsOfEntries (store : Store) (sc : String) :
    ∀ (xs : List JEntry) (x : String),
      x ∈ sluggedIdsOfEntries store sc xs ↔
        ∃ ref li, JEntry.jitem ref ∈ xs ∧ store[ref]? = some li ∧
          hasSlugValue sc li = true ∧ li.system.id = x := by
  intro xs
  induction xs with
  | nil =>
    intro x
    simp [sluggedIdsOfEntries]
  | cons e rest ih =>
    intro x
    cases e with
    | jterm c =>
      simp only [sluggedIdsOfEntries, ih]
      constructor
      · rintro ⟨ref, li, hmem, hrest⟩
        exact ⟨ref, li, List.mem_cons_of_mem _ hmem, hrest⟩
      · rintro ⟨ref, li, hmem, hrest⟩
        rcases List.mem_cons.1 hmem with h | h
        · cases h
        · exact ⟨ref, li, h, hrest⟩
    | jitem ref0 =>
      cases hl : store[ref0]? with
      | none =>
        simp only [sluggedIdsOfEntries, hl, ih]
        constructor
        · rintro ⟨ref, li, hmem, hrest⟩
          exact ⟨ref, li, List.mem_cons_of_mem _ hmem, hrest⟩
        · rintro ⟨ref, li, hmem, hlk, hs, hid⟩
          rcases List.mem_cons.1 hmem with h | h
          · exfalso
            have : ref = ref0 := by
              injection h
            rw [this, hl] at hlk
            cases hlk
          · exact ⟨ref, li, h, hlk, hs, hid⟩
      | some li0 =>
        by_cases hs0 : hasSlugValue sc li0 = true
        · simp only [sluggedIdsOfEntries, hl, if_pos hs0, List.mem_cons, ih]
          constructor
          · rintro (h | ⟨ref, li, hmem, hrest⟩)
            · exact ⟨ref0, li0, Or.inl rfl, hl, hs0, h.symm⟩
            · exact ⟨ref, li, Or.inr hmem, hrest⟩
          · rintro ⟨ref, li, hmem, hlk, hs, hid⟩
            rcases hmem with h | h
            · left
              have : ref = ref0 := by
                injection h
              rw [this, hl] at hlk
              injection hlk with hli
              rw [← hid, hli]
            · exact Or.inr ⟨ref, li, h, hlk, hs, hid⟩
        · simp only [sluggedIdsOfEntries, hl, if_neg hs0, ih]
          constructor
          · rintro ⟨ref, li, hmem, hrest⟩
            exact ⟨ref, li, List.mem_cons_of_mem _ hmem, hrest⟩
          · rintro ⟨ref, li, hmem, hlk, hs, hid⟩
            rcases List.mem_cons.1 hmem with h | h
            · exfalso
              have : ref = ref0 := by
                injection h
              rw [this, hl] at hlk
              injection hlk with hli
              rw [← hli] at hs
              exact hs0 hs
            · exact ⟨ref, li, h, hlk, hs, hid⟩

theorem goEntries_processed_subset (store : Store) (sc : String)
    (r : ContentItem → List String → List ContentBlock × List String)
    (hr : ∀ (ref : Nat) (li : ContentItem) (pr : List String),
      store[ref]? = some li → hasSlugValue sc li = false →
      (r li pr).2 ⊆ nonSlugKeys store sc ++ pr) :
    ∀ (xs : List JEntry) (st : RBState),
      (goEntries store sc r xs st).2.2 ⊆ nonSlugKeys store sc ++ st.2.2 := by
  intro xs
  induction xs with
  | nil => intro st a ha; exact List.mem_append_right _ ha
  | cons e rest ih =>
    intro st
    cases e with
    | jterm c =>
      simp only [goEntries]
      exact ih st
    | jitem ref =>
      cases hl : store[ref]? with
      | none =>
        simp only [goEntries, hl]
        exact ih st
      | some li =>
        obtain ⟨c, p, pr⟩ := st
        simp only [goEntries, hl]
        by_cases hs : hasSlugValue sc li = true
        · simp only [if_pos hs]
          exact ih (c, p ++ [li.system.id], pr)
        · simp only [if_neg hs]
          rcases hrec : r li pr with ⟨bs, pr2⟩
          have h1 : pr2 ⊆ nonSlugKeys store sc ++ pr := by
            have := hr ref li pr hl (Bool.not_eq_true _ ▸ hs)
            rw [hrec] at this
            exact this
          intro a ha
          have h2 := ih (c ++ " " ++ String.intercalate " "
            (bs.map fun b => b.contents), p, pr2) ha
          rcases List.mem_append.1 h2 with h | h
          · exact List.mem_append_left _ h
          · exact h1 h

theorem goElements_processed_subset (store : Store) (sc : String)
    (r : ContentItem → List String → List ContentBlock × List String)
    (hr : ∀ (ref : Nat) (li : ContentItem) (pr : List String),
      store[ref]? = some li → hasSlugValue sc li = false →
      (r li pr).2 ⊆ nonSlugKeys store sc ++ pr) :
    ∀ (es : List (String × Element)) (st : RBState),
      (goElements store sc r es st).2.2 ⊆ nonSlugKeys store sc ++ st.2.2 := by
  intro es
  induction es with
  | nil => intro st a ha; exact List.mem_append_right _ ha
  | cons kv rest ih =>
    intro st
    obtain ⟨key, el⟩ := kv
    by_cases hk : key = "metadata"
    · simp only [goElements, if_pos hk]
      exact ih st
    · obtain ⟨c, p, pr⟩ := st
      cases hv : el.value with
      | jstr s =>
        simp only [goElements, if_neg hk, hv]
        exact ih (c ++ " " ++ (if el.type = "rich_text" then replaceTagsStr s else s), p, pr)
      | jnum n =>
        simp only [goElements, if_neg hk, hv]
        exact ih (c, p, pr)
      | jundef =>
        simp only [goElements, if_neg hk, hv]
        exact ih (c, p, pr)
      | jarr entries =>
        simp only [goElements, if_neg hk, hv]
        by_cases ht : el.type = "modular_content"
        · simp only [if_pos ht]
          intro a ha
          have h2 := ih (goEntries store sc r entries (c, p, pr)) ha
          rcases List.mem_append.1 h2 with h | h
          · exact List.mem_append_left _ h
          · have h3 := goEntries_processed_subset store sc r hr entries (c, p, pr) h
            exact h3
        · simp only [if_neg ht]
          exact ih (c, p, pr)

theorem createRecordBlocksF_processed_subset (store : Store) (sc : String) :
    ∀ (fuel : Nat) (it : ContentItem) (pr : List String),
      (createRecordBlocksF store sc fuel it pr).2 ⊆
        itemKey it :: (nonSlugKeys store sc ++ pr) := by
  intro fuel
  induction fuel with
  | zero =>
    intro it pr a ha
    exact List.mem_cons_of_mem _ (List.mem_append_right _ ha)
  | succ fuel ih =>
    intro it pr
    by_cases hmem : itemKey it ∈ pr
    · rw [createRecordBlocksF_mem store sc fuel it pr hmem]
      intro a ha
      exact List.mem_cons_of_mem _ (List.mem_append_right _ ha)
    · rw [createRecordBlocksF_enter store sc fuel it pr hmem]
      have hr : ∀ (ref : Nat) (li : ContentItem) (pr2 : List String),
          store[ref]? = some li → hasSlugValue sc li = false →
          (createRecordBlocksF store sc fuel li pr2).2 ⊆ nonSlugKeys store sc ++ pr2 := by
        intro ref li pr2 href hsl
        have hli : li ∈ store := List.getElem?_mem href
        have hkey : itemKey li ∈ nonSlugKeys store sc := by
          unfold nonSlugKeys
          refine List.mem_map.2 ⟨li, ?_, rfl⟩
          refine List.mem_filter.2 ⟨hli, ?_⟩
          rw [hsl]
          rfl
        intro a ha
        rcases List.mem_cons.1 (ih li pr2 ha) with h | h
        · rw [h]
          exact List.mem_append_left _ hkey
        · exact h
      intro a ha
      have h2 := goElements_processed_subset store sc _ hr it.elements
        ("", [], itemKey it :: pr) ha
      rcases List.mem_append.1 h2 with h | h
      · exact List.mem_cons_of_mem _ (List.mem_append_left _ h)
      · rcases List.mem_cons.1 h with h3 | h3
        · rw [h3]
          exact List.mem_cons_self _ _
        · exact List.mem_cons_of_mem _ (List.mem_append_right _ h3)

theorem goEntries_step_slugged (store : Store) (sc : String)
    (r : ContentItem → List String → List ContentBlock × List String)
    (ref : Nat) (li : ContentItem) (rest : List JEntry)
    (c : String) (p pr : List String)
    (hl : store[ref]? = some li) (hs : hasSlugValue sc li = true) :
    goEntries store sc r (JEntry.jitem ref :: rest) (c, p, pr) =
      goEntries store sc r rest (c, p ++ [li.system.id], pr) := by
  simp only [goEntries, hl, if_pos hs]

theorem goEntries_step_inlined (store : Store) (sc : String)
    (r : ContentItem → List String → List ContentBlock × List String)
    (ref : Nat) (li : ContentItem) (rest : List JEntry)
    (c : String) (p pr : List String)
    (hl : store[ref]? = some li) (hs : hasSlugValue sc li = false) :
    goEntries store sc r (JEntry.jitem ref :: rest) (c, p, pr) =
      goEntries store sc r rest
        (c ++ " " ++ String.intercalate " " ((r li pr).1.map fun b => b.contents),
          p, (r li pr).2) := by
  have hs2 : ¬ hasSlugValue sc li = true := by
    rw [hs]
    exact Bool.false_ne_true
  simp only [goEntries, hl, if_neg hs2]

/-- C9: during generic flattening, a linked item with a non-empty slug
value has its id pushed onto the current block's `parents` and is not
recursed into, while a linked item without one is recursively inlined
and never appears in `parents`: the produced block's `parents` list is
exactly the slugged linked ids of the item's elements, membership in
those ids requires passing the slug test, and the visited set only ever
contains the start item's key and keys of slug-less store items — a
slugged linked item is never visited, so its text is never inlined. -/
theorem c9_slug_filtering :
    ∀ (store : Store) (sc : String) (fuel : Nat) (item : ContentItem) (pr : List String),
      (itemKey item ∉ pr →
        ∃ b pr2, createRecordBlocksF store sc (fuel + 1) item pr = ([b], pr2) ∧
          b.parents = sluggedIdsOfElements store sc item.elements) ∧
      (∀ (xs : List JEntry) (x : String),
        x ∈ sluggedIdsOfEntries store sc xs ↔
          ∃ ref li, JEntry.jitem ref ∈ xs ∧ store[ref]? = some li ∧
            hasSlugValue sc li = true ∧ li.system.id = x) ∧
      ((createRecordBlocksF store sc fuel item pr).2 ⊆
        itemKey item :: (nonSlugKeys store sc ++ pr)) ∧
      (∀ (r : ContentItem → List String → List ContentBlock × List String)
        (ref : Nat) (li : ContentItem) (rest : List JEntry) (c : String) (p pr2 : List String),
        store[ref]? = some li → hasSlugValue sc li = true →
        goEntries store sc r (JEntry.jitem ref :: rest) (c, p, pr2) =
          goEntries store sc r rest (c, p ++ [li.system.id], pr2)) ∧
      (∀ (r : ContentItem → List String → List ContentBlock × List String)
        (ref : Nat) (li : ContentItem) (rest : List JEntry) (c : String) (p pr2 : List String),
        store[ref]? = some li → hasSlugValue sc li = false →
        goEntries store sc r (JEntry.jitem ref :: rest) (c, p, pr2) =
          goEntries store sc r rest
            (c ++ " " ++ String.intercalate " " ((r li pr2).1.map fun b => b.contents),
              p, (r li pr2).2)) := by
  intro store sc fuel item pr
  refine ⟨?_, mem_sluggedIdsOfEntries store sc,
    createRecordBlocksF_processed_subset store sc fuel item pr,
    fun r ref li rest c p pr2 hl hs => goEntries_step_slugged store sc r ref li rest c p pr2 hl hs,
    fun r ref li rest c p pr2 hl hs => goEntries_step_inlined store sc r ref li rest c p pr2 hl hs⟩
  intro hmem
  rw [createRecordBlocksF_enter store sc fuel item pr hmem]
  refine ⟨_, _, rfl, ?_⟩
  rw [goElements_parents store sc _ item.elements ("", [], itemKey item :: pr)]
  rfl

/-- C9 witness: on the concrete store, the flattened parent block records
exactly the slugged child in `parents`, inlines only the slug-less
child's text (the slugged child's text `SECRET` is absent), and the
slugged child's key is never visited. -/
theorem c9_slug_filtering_witness :
    (∃ b pr2, createRecordBlocksF slugStore "url" (slugStore.length + 1 + 1)
        parentItem [] = ([b], pr2) ∧
      b.parents = sluggedIdsOfElements slugStore "url" parentItem.elements) ∧
    sluggedIdsOfElements slugStore "url" parentItem.elements = ["idS"] ∧
    ((createRecordBlocks slugStore "url" parentItem []).1.map fun b => b.contents) =
      ["Ptext Ttext"] ∧
    (createRecordBlocks slugStore "url" parentItem []).2 = ["idT_en", "idP_en"] ∧
    itemKey sluggedChild ∉ (createRecordBlocks slugStore "url" parentItem []).2 :=
  ⟨(c9_slug_filtering slugStore "url" (slugStore.length + 1) parentItem []).1 (by decide),
    by decide, by decide, by decide, by decide⟩

end AlgoliaSync
